import Mathlib

/-!
Shallow embedding of `diffblame` (src/main.go): the commit-graph walk and
per-path attribution algorithm.

Modelling conventions:
- A commit is a node with a hash, an ordered parent-hash list, a committer
  timestamp (Nat) and the set of paths present in its tree (List String).
- A repository is the list of its commit objects; object-store lookup of a
  hash (`repo.CommitObject` / `commit.Parent`) is `Repo.find?`, which returns
  `none` exactly when the object does not resolve.
- go-git's `c.IsAncestor(other)` ("c is an ancestor of other", a commit being
  its own ancestor, as for `git merge-base --is-ancestor`) is `ancestorOf`,
  computed by fuel-bounded backward reachability from the descendant; the
  fuel is an explicit model parameter (`afuel`).
- Go maps with fixed key sets (`statuses`) are functions `String → fileStatus`
  consulted at the fixed key list `paths`; the iteration-order independence of
  the two loops over `statuses` makes this faithful.
- The seen set (`map[string]bool` written only with `true`) is the list of
  hashes marked so far; marking prepends, membership is `List.contains`.
- The shared result map `commitsSet` is an association list; insertion
  prepends (lookup returns the most recent binding, as for map assignment).
- `logger.Fatalf` and the nil-pointer dereference that follows a failed
  `Parent(0)` on the single-parent fast path both terminate the process; the
  walk therefore returns `Except`, with distinct error constructors for the
  two mechanisms.  Recursion is fuel-bounded (`outOfFuel` is a model
  artifact, not a program behaviour).
- Go's `sort.Slice` over the randomized iteration order of `commitsSet` is
  modelled by an explicit iteration-order parameter followed by an insertion
  sort on the committer timestamp.
-/

namespace DiffBlame

/-- A commit object: content hash, ordered parent hashes, committer
timestamp (`Committer.When`), and the set of paths present in its tree. -/
structure Commit where
  hash : String
  parents : List String
  committerWhen : Nat
  files : List String
deriving DecidableEq, Repr

/-- The object store: the list of commit objects it holds. -/
structure Repo where
  commits : List Commit
deriving DecidableEq, Repr

/-- Resolve a hash in the object store (`repo.CommitObject`). -/
def Repo.find? (r : Repo) (h : String) : Option Commit :=
  r.commits.find? (fun c => c.hash == h)

/-- `current.File(path)` succeeding, i.e. the path exists in the commit's
tree. -/
def fileExists (c : Commit) (path : String) : Bool :=
  c.files.contains path

/-- go-git `a.IsAncestor(d)`: `a` is an ancestor of `d` (reflexively),
computed by backward reachability from `d` bounded by `fuel`. -/
def ancestorOf (r : Repo) : Nat → String → String → Bool
  | 0, a, d => a == d
  | fuel + 1, a, d =>
    a == d ||
      match r.find? d with
      | some c => c.parents.any (fun p => ancestorOf r fuel a p)
      | none => false

/-- Per-path state of the Path Status Tracker (`fileStatus` in main.go). -/
inductive fileStatus where
  | seeking
  | found
  | removed
deriving DecidableEq, Repr

/-- `copyMap`: the copy of the status map handed to a recursive branch
(value semantics make the copy a pointwise read). -/
def copyMap (m : String → fileStatus) : String → fileStatus :=
  fun k => m k

/-- Point update of a status map (`statuses[path] = v`). -/
def setStatus (st : String → fileStatus) (p : String) (v : fileStatus) :
    String → fileStatus :=
  fun q => if q = p then v else st q

/-- One iteration of the fast-path loop over `statuses` for a single `path`:
updates the map and the running `process` flag exactly as main.go lines
220-238 do. -/
def updStep (c : Commit) (acc : (String → fileStatus) × Bool) (path : String) :
    (String → fileStatus) × Bool :=
  match acc.1 path with
  | .removed => acc
  | status =>
    if fileExists c path then
      (setStatus acc.1 path .found, true)
    else if status = .found then
      (setStatus acc.1 path .removed, acc.2)
    else
      acc

/-- The Path Status Tracker pass run at each single-parent commit: the loop
`for path, status := range statuses` of main.go, returning the updated map
and the `process` flag. -/
def updateStatuses (c : Commit) (paths : List String)
    (st : String → fileStatus) : (String → fileStatus) × Bool :=
  paths.foldl (updStep c) (st, false)

/-- Walk errors: `outOfFuel` is the model's recursion bound; `nilPanic` is
the nil-pointer dereference that follows a failed `current.Parent(0)` on the
single-parent fast path (the error is only debug-logged, `current` becomes
nil, and the next loop iteration dereferences it); `fatalParent` is the
`logger.Fatalf` for an unresolvable parent at a merge/root fan-out. -/
inductive WalkErr where
  | outOfFuel
  | nilPanic (hash : String)
  | fatalParent (hash : String) (idx : Nat)
deriving DecidableEq, Repr

/-- The result map `commitsSet`, keyed by hash; insertion prepends so that
lookup returns the latest binding. -/
abbrev CommitMap := List (String × Commit)

/-- Lookup in the result map. -/
def lookupCommit (m : CommitMap) (h : String) : Option Commit :=
  (m.find? (fun kv => kv.1 == h)).map (fun kv => kv.2)

/-- `commits[c.Hash.String()] = c`. -/
def insertCommit (m : CommitMap) (c : Commit) : CommitMap :=
  (c.hash, c) :: m

/-- The two accumulation strategies handed to the walker (`addAlways` and
`addIfNotAncestor(commitsSet, base)` in main.go). -/
inductive accStrategy where
  | addAlways
  | addIfNotAncestor (base : String)
deriving DecidableEq, Repr

/-- Run the accumulator closure on a commit: returns the updated result map
and the boolean the closure returns (`false` means "stop this branch"). -/
def runAcc (r : Repo) (afuel : Nat) (acc : accStrategy) (c : Commit)
    (m : CommitMap) : CommitMap × Bool :=
  match acc with
  | .addAlways => (insertCommit m c, true)
  | .addIfNotAncestor base =>
    if ancestorOf r afuel c.hash base then (m, false)
    else (insertCommit m c, true)

/-- The `if process { if !acc(current) { return } }` step of the fast path
(main.go lines 240-246): when `process` is set, run the accumulator closure;
otherwise leave the result map alone and keep walking. -/
def fastAcc (r : Repo) (afuel : Nat) (acc : accStrategy) (current : Commit)
    (process : Bool) (cm : CommitMap) : CommitMap × Bool :=
  if process then runAcc r afuel acc current cm else (cm, true)

/-- The per-parent `process` check at a merge/root fan-out (main.go lines
267-275): some tracked path has a non-`removed` status and either exists in
the parent's tree or is still `seeking`. -/
def branchProcess (p : Commit) (paths : List String)
    (st : String → fileStatus) : Bool :=
  paths.any (fun q => !(st q == .removed) && (fileExists p q || st q == .seeking))

/-- The `for idx := 0; idx < current.NumParents(); idx++` loop of
`accumulateCommitsForPaths` (main.go lines 261-290), parameterized by the
recursive walk `rec` it descends with.  The seen set and the result map are
threaded through the iterations (shared by reference in Go); each descent
receives a `copyMap` of the status map. -/
def walkParents (r : Repo) (beginH : String) (afuel : Nat)
    (paths : List String)
    (rec : Commit → List String → (String → fileStatus) → CommitMap →
      Except WalkErr (List String × CommitMap)) :
    List String → Nat → String → List String → (String → fileStatus) →
      CommitMap → Except WalkErr (List String × CommitMap)
  | [], _, _, seen, _, cm => .ok (seen, cm)
  | pHash :: rest, idx, curHash, seen, st, cm =>
    match r.find? pHash with
    | none => .error (.fatalParent curHash idx)
    | some p =>
      if !(branchProcess p paths st) then
        walkParents r beginH afuel paths rec rest (idx + 1) curHash seen st cm
      else if ancestorOf r afuel p.hash beginH then
        walkParents r beginH afuel paths rec rest (idx + 1) curHash seen st cm
      else
        match rec p seen (copyMap st) cm with
        | .error e => .error e
        | .ok (seen', cm') =>
          walkParents r beginH afuel paths rec rest (idx + 1) curHash seen' st cm'

/-- `accumulateCommitsForPaths` (main.go lines 202-291): the backward walk
from `current`.  The outer `for` loop (seen check, mark, single-parent fast
path) is the fuel recursion; reaching a commit with zero or at least two
parents drops into `walkParents`. -/
def accumulateCommitsForPaths (r : Repo) (beginH : String) (afuel : Nat)
    (paths : List String) (acc : accStrategy) :
    Nat → Commit → List String → (String → fileStatus) → CommitMap →
      Except WalkErr (List String × CommitMap)
  | 0, _, _, _, _ => .error .outOfFuel
  | fuel + 1, current, seen, st, cm =>
    if seen.contains current.hash then
      .ok (seen, cm)
    else
      match current.parents with
      | [pHash] =>
        match fastAcc r afuel acc current (updateStatuses current paths st).2 cm with
        | (cm1, false) => .ok (current.hash :: seen, cm1)
        | (cm1, true) =>
          match r.find? pHash with
          | none => .error (.nilPanic current.hash)
          | some next =>
            accumulateCommitsForPaths r beginH afuel paths acc fuel next
              (current.hash :: seen) (updateStatuses current paths st).1 cm1
      | _ =>
        walkParents r beginH afuel paths
          (fun c s t m =>
            accumulateCommitsForPaths r beginH afuel paths acc fuel c s t m)
          current.parents 0 current.hash (current.hash :: seen) st cm

/-- The three per-class ChangeList sequences. -/
structure changeList where
  added : List String
  removed : List String
  changed : List String
deriving DecidableEq, Repr

/-- `computeDiffCommits` up to (but not including) the final map iteration
and sort: the three class-specific walks over the shared `commitsSet`.  Each
walk starts with a fresh (empty) seen set (`nil` is passed in main.go);
added and changed paths start `found`, removed paths start `seeking`; the
added walk accumulates unconditionally while the removed and changed walks
are ancestry-gated against the end commit. -/
def computeDiffCommitsSet (r : Repo) (beginC endC : Commit)
    (afuel fuel : Nat) (cl : changeList) : Except WalkErr CommitMap :=
  match accumulateCommitsForPaths r beginC.hash afuel cl.added .addAlways
      fuel endC [] (fun _ => .found) [] with
  | .error e => .error e
  | .ok (_, cm1) =>
    match accumulateCommitsForPaths r beginC.hash afuel cl.removed
        (.addIfNotAncestor endC.hash) fuel endC [] (fun _ => .seeking) cm1 with
    | .error e => .error e
    | .ok (_, cm2) =>
      match accumulateCommitsForPaths r beginC.hash afuel cl.changed
          (.addIfNotAncestor endC.hash) fuel endC [] (fun _ => .found) cm2 with
      | .error e => .error e
      | .ok (_, cm3) => .ok cm3

/-- Insert a commit into a list sorted by committer timestamp (the
comparison `sort.Slice` is given: strictly earlier timestamps go first). -/
def insertByWhen (c : Commit) : List Commit → List Commit
  | [] => [c]
  | d :: ds =>
    if c.committerWhen < d.committerWhen then c :: d :: ds
    else d :: insertByWhen c ds

/-- The sort of `computeDiffCommits` (main.go lines 180-182), as an
insertion sort on the committer timestamp. -/
def sortByWhen (l : List Commit) : List Commit :=
  l.foldr insertByWhen []

/-- The final materialization of `computeDiffCommits`: iterate the result
map in the (run-dependent) order `order` of its keys, then sort by committer
timestamp. -/
def materializeCommits (m : CommitMap) (order : List String) : List Commit :=
  sortByWhen (order.filterMap (fun h => lookupCommit m h))

/-- Does `pat` occur as a contiguous run of `l`? -/
def charsContain (pat : List Char) : List Char → Bool
  | [] => pat.isPrefixOf ([] : List Char)
  | c :: rest => pat.isPrefixOf (c :: rest) || charsContain pat rest

/-- `strings.Contains(s, pat)`. -/
def strContains (s pat : String) : Bool :=
  charsContain pat.data s.data

/-- One entry of `changelist.FilePatches()`: the (possibly absent) source
and destination sides of a file patch. -/
structure filePatch where
  src : Option String
  dst : Option String
deriving DecidableEq, Repr

/-- The classification loop of `changedFiles` (main.go lines 120-146) over
the file patches of the begin..end tree diff.  (go-git guarantees at least
one side of a patch is present; a patch with neither side is left
unclassified here.) -/
def changedFiles (patches : List filePatch) : changeList :=
  patches.foldl
    (fun cl p =>
      match p.src, p.dst with
      | none, some d =>
        if strContains d "vendor/" then cl
        else { cl with added := cl.added ++ [d] }
      | some s, none =>
        if strContains s "vendor/" then cl
        else { cl with removed := cl.removed ++ [s] }
      | some s, some d =>
        if s != d then
          if strContains s "vendor/" then cl
          else { cl with added := cl.added ++ [d], removed := cl.removed ++ [s] }
        else
          if strContains s "vendor/" then cl
          else { cl with changed := cl.changed ++ [s] }
      | none, none => cl)
    { added := [], removed := [], changed := [] }

/-! ### Concrete histories used by the claim theorems -/

/-- Linear scenario, root: `A` (empty tree). -/
def linA : Commit := { hash := "A", parents := [], committerWhen := 1, files := [] }

/-- Linear scenario: `B` adds `file.txt`. -/
def linB : Commit := { hash := "B", parents := ["A"], committerWhen := 2, files := ["file.txt"] }

/-- Linear scenario: `C` modifies `file.txt` (still present). -/
def linC : Commit := { hash := "C", parents := ["B"], committerWhen := 3, files := ["file.txt"] }

/-- Linear scenario: `D` deletes `file.txt`. -/
def linD : Commit := { hash := "D", parents := ["C"], committerWhen := 4, files := [] }

/-- The linear history `A - B - C - D`. -/
def linRepo : Repo := { commits := [linA, linB, linC, linD] }

/-! ### C2: the removed-file walk on the linear scenario -/

/-- **C2** (code bug evidence).  On the linear history
`A(root) - B(adds file.txt) - C(modifies file.txt) - D(deletes file.txt)`
with begin `A` and end `D`, the removed-file walk (statuses initialized to
`seeking`, ancestry-gated accumulator) visits `D` then `C` and reports **no**
commits at all — not `B` and `C` as the specification requires: the gate
compares candidates against the *end* commit, `C` is an ancestor of `D`, so
`C` is rejected and the walk stops there. -/
theorem c2_removed_walk_reports_no_commits :
    accumulateCommitsForPaths linRepo "A" 8 ["file.txt"]
        (.addIfNotAncestor "D") 8 linD [] (fun _ => .seeking) []
      = .ok (["C", "D"], []) := rfl

/-! ### C8: vendored-path exclusion in `changedFiles` -/

/-- **C8** (counterexample).  A rename of `a.go` to `vendor/a.go` puts the
vendored destination path into the `added` sequence: the rename case of
`changedFiles` vendor-checks only the source path name. -/
theorem c8_counterexample_rename_into_vendor :
    changedFiles [{ src := some "a.go", dst := some "vendor/a.go" }]
        = { added := ["vendor/a.go"], removed := ["a.go"], changed := [] }
      ∧ strContains "vendor/a.go" "vendor/" = true := ⟨rfl, rfl⟩

/-- The invariant maintained by the classification loop of `changedFiles`:
`removed` and `changed` hold no vendored paths, and a vendored path occurs
in `added` only as the destination of a rename whose source is unvendored
and drawn from `big`. -/
def vendorClean (big : List filePatch) (cl : changeList) : Prop :=
  (∀ p ∈ cl.removed, strContains p "vendor/" = false)
    ∧ (∀ p ∈ cl.changed, strContains p "vendor/" = false)
    ∧ (∀ p ∈ cl.added, strContains p "vendor/" = true →
        ∃ s, (⟨some s, some p⟩ : filePatch) ∈ big ∧ s ≠ p
          ∧ strContains s "vendor/" = false)

theorem vendorClean_fold (big : List filePatch) :
    ∀ (patches : List filePatch) (cl0 : changeList),
      (∀ q ∈ patches, q ∈ big) → vendorClean big cl0 →
      vendorClean big
        (patches.foldl
          (fun cl p =>
            match p.src, p.dst with
            | none, some d =>
              if strContains d "vendor/" then cl
              else { cl with added := cl.added ++ [d] }
            | some s, none =>
              if strContains s "vendor/" then cl
              else { cl with removed := cl.removed ++ [s] }
            | some s, some d =>
              if s != d then
                if strContains s "vendor/" then cl
                else { cl with added := cl.added ++ [d], removed := cl.removed ++ [s] }
              else
                if strContains s "vendor/" then cl
                else { cl with changed := cl.changed ++ [s] }
            | none, none => cl)
          cl0) := by
  intro patches
  induction patches with
  | nil => intro cl0 _ h0; simpa using h0
  | cons q rest ih =>
    intro cl0 hmem h0
    rw [List.foldl_cons]
    refine ih _ (fun x hx => hmem x (List.mem_cons_of_mem q hx)) ?_
    have hqbig : q ∈ big := hmem q (List.mem_cons_self q rest)
    obtain ⟨hrem, hchg, hadd⟩ := h0
    rcases q with ⟨src, dst⟩
    rcases src with _ | s <;> rcases dst with _ | d
    · exact ⟨hrem, hchg, hadd⟩
    · dsimp only
      by_cases hv : strContains d "vendor/" = true
      · simp only [hv, if_true]; exact ⟨hrem, hchg, hadd⟩
      · simp only [Bool.not_eq_true] at hv
        simp only [hv, Bool.false_eq_true, if_false]
        refine ⟨hrem, hchg, ?_⟩
        intro p hp hpv
        rcases List.mem_append.mp hp with hp | hp
        · exact hadd p hp hpv
        · have : p = d := List.mem_singleton.mp hp
          subst this
          exact absurd hpv (by simp [hv])
    · dsimp only
      by_cases hv : strContains s "vendor/" = true
      · simp only [hv, if_true]; exact ⟨hrem, hchg, hadd⟩
      · simp only [Bool.not_eq_true] at hv
        simp only [hv, Bool.false_eq_true, if_false]
        refine ⟨?_, hchg, hadd⟩
        intro p hp
        rcases List.mem_append.mp hp with hp | hp
        · exact hrem p hp
        · have : p = s := List.mem_singleton.mp hp
          subst this; exact hv
    · dsimp only
      by_cases hsd : (s != d) = true
      · simp only [hsd, if_true]
        by_cases hv : strContains s "vendor/" = true
        · simp only [hv, if_true]; exact ⟨hrem, hchg, hadd⟩
        · simp only [Bool.not_eq_true] at hv
          simp only [hv, Bool.false_eq_true, if_false]
          refine ⟨?_, hchg, ?_⟩
          · intro p hp
            rcases List.mem_append.mp hp with hp | hp
            · exact hrem p hp
            · have : p = s := List.mem_singleton.mp hp
              subst this; exact hv
          · intro p hp hpv
            rcases List.mem_append.mp hp with hp | hp
            · exact hadd p hp hpv
            · have : p = d := List.mem_singleton.mp hp
              subst this
              exact ⟨s, hqbig, by simpa using hsd, hv⟩
      · simp only [hsd, Bool.false_eq_true, if_false]
        by_cases hv : strContains s "vendor/" = true
        · simp only [hv, if_true]; exact ⟨hrem, hchg, hadd⟩
        · simp only [Bool.not_eq_true] at hv
          simp only [hv, Bool.false_eq_true, if_false]
          refine ⟨hrem, ?_, hadd⟩
          intro p hp
          rcases List.mem_append.mp hp with hp | hp
          · exact hchg p hp
          · have : p = s := List.mem_singleton.mp hp
            subst this; exact hv

/-- **C8** (amended).  For every tree diff, no vendored path (one containing
`vendor/`) appears in the `removed` or `changed` sequences, and a vendored
path appears in `added` only as the *new* name of a detected rename whose
*old* name is not vendored — the rename case excludes on the old path name
only, so the new name is not checked. -/
theorem c8_amended_vendor_exclusion (patches : List filePatch) :
    (∀ p ∈ (changedFiles patches).removed, strContains p "vendor/" = false)
      ∧ (∀ p ∈ (changedFiles patches).changed, strContains p "vendor/" = false)
      ∧ (∀ p ∈ (changedFiles patches).added, strContains p "vendor/" = true →
          ∃ s, (⟨some s, some p⟩ : filePatch) ∈ patches ∧ s ≠ p
            ∧ strContains s "vendor/" = false) := by
  have base : vendorClean patches { added := [], removed := [], changed := [] } := by
    refine ⟨?_, ?_, ?_⟩ <;> intro p hp <;> cases hp
  have h := vendorClean_fold patches patches
      { added := [], removed := [], changed := [] } (fun q hq => hq) base
  simpa [changedFiles, vendorClean] using h

/-- Witness for `c8_amended_vendor_exclusion` at a concrete patch list. -/
theorem c8_amended_vendor_exclusion_witness :
    ∃ s, (⟨some s, some "vendor/a.go"⟩ : filePatch)
          ∈ [({ src := some "a.go", dst := some "vendor/a.go" } : filePatch)]
        ∧ s ≠ "vendor/a.go" ∧ strContains s "vendor/" = false :=
  (c8_amended_vendor_exclusion
      [{ src := some "a.go", dst := some "vendor/a.go" }]).2.2
    "vendor/a.go" (by decide) (by decide)

/-! ### C3: the Path Status Tracker state table -/

/-- The state table of spec §4.1, written from the spec's words (spec-side
definition for the refinement claim C3): given the previous status and the
existence check, the new status is `Found` when the path exists (unless
`Removed`), `Seeking` stays `Seeking` when absent, `Found` becomes `Removed`
when absent, and `Removed` is never reconsidered. -/
def statusTable : fileStatus → Bool → fileStatus
  | .removed, _ => .removed
  | _, true => .found
  | .seeking, false => .seeking
  | .found, false => .removed

theorem setStatus_ne (st : String → fileStatus) (p : String) (v : fileStatus)
    (q : String) (h : q ≠ p) : setStatus st p v q = st q := by
  simp [setStatus, h]

theorem updStep_fst_ne (c : Commit) (acc : (String → fileStatus) × Bool)
    (p q : String) (h : q ≠ p) : (updStep c acc p).1 q = acc.1 q := by
  unfold updStep
  cases hs : acc.1 p <;> dsimp only <;>
    first
      | rfl
      | (by_cases he : fileExists c p = true <;>
          simp [he, setStatus_ne, h])

theorem updStep_fst_self (c : Commit) (acc : (String → fileStatus) × Bool)
    (p : String) :
    (updStep c acc p).1 p = statusTable (acc.1 p) (fileExists c p) := by
  unfold updStep
  cases hs : acc.1 p <;>
    by_cases he : fileExists c p = true <;>
      simp_all [statusTable, setStatus]

theorem updStep_snd (c : Commit) (acc : (String → fileStatus) × Bool)
    (p : String) :
    (updStep c acc p).2 = (acc.2 || (!(acc.1 p == .removed) && fileExists c p)) := by
  unfold updStep
  cases hs : acc.1 p <;>
    by_cases he : fileExists c p = true <;>
      simp_all [setStatus]

theorem anyCongrOn {α : Type} : ∀ (l : List α) (f g : α → Bool),
    (∀ x ∈ l, f x = g x) → l.any f = l.any g := by
  intro l
  induction l with
  | nil => intro f g _; rfl
  | cons x rest ih =>
    intro f g h
    simp only [List.any_cons]
    rw [h x (List.mem_cons_self x rest),
      ih f g (fun y hy => h y (List.mem_cons_of_mem x hy))]

theorem fold_upd_fst_not_mem (c : Commit) :
    ∀ (l : List String) (acc : (String → fileStatus) × Bool) (q : String),
      q ∉ l → (l.foldl (updStep c) acc).1 q = acc.1 q := by
  intro l
  induction l with
  | nil => intro acc q _; rfl
  | cons p rest ih =>
    intro acc q h
    rw [List.foldl_cons,
      ih (updStep c acc p) q (fun hm => h (List.mem_cons_of_mem p hm)),
      updStep_fst_ne c acc p q (fun e => h (e ▸ List.mem_cons_self p rest))]

theorem fold_upd_fst_mem (c : Commit) :
    ∀ (l : List String) (acc : (String → fileStatus) × Bool) (q : String),
      q ∈ l → l.Nodup →
      (l.foldl (updStep c) acc).1 q = statusTable (acc.1 q) (fileExists c q) := by
  intro l
  induction l with
  | nil => intro acc q h _; cases h
  | cons p rest ih =>
    intro acc q hmem hnd
    obtain ⟨hp, hnd'⟩ := List.nodup_cons.mp hnd
    rw [List.foldl_cons]
    rcases List.mem_cons.mp hmem with he | hm
    · subst he
      rw [fold_upd_fst_not_mem c rest (updStep c acc q) q hp,
        updStep_fst_self]
    · have hq : q ≠ p := fun e => hp (e ▸ hm)
      rw [ih (updStep c acc p) q hm hnd', updStep_fst_ne c acc p q hq]

theorem fold_upd_snd (c : Commit) :
    ∀ (l : List String) (acc : (String → fileStatus) × Bool),
      l.Nodup →
      (l.foldl (updStep c) acc).2
        = (acc.2 || l.any (fun p => !(acc.1 p == .removed) && fileExists c p)) := by
  intro l
  induction l with
  | nil => intro acc _; simp
  | cons p rest ih =>
    intro acc hnd
    obtain ⟨hp, hnd'⟩ := List.nodup_cons.mp hnd
    rw [List.foldl_cons, ih (updStep c acc p) hnd']
    have hany : rest.any
          (fun q => !((updStep c acc p).1 q == .removed) && fileExists c q)
        = rest.any (fun q => !(acc.1 q == .removed) && fileExists c q) := by
      apply anyCongrOn
      intro q hq
      rw [updStep_fst_ne c acc p q (fun e => hp (e ▸ hq))]
    rw [hany, updStep_snd, List.any_cons, Bool.or_assoc]

/-- **C3** (confirmed).  On the single-parent fast path the Path Status
Tracker pass realizes exactly the spec's state table for every tracked path
(`seeking` + exists → `found`; `seeking` + absent → unchanged; `found` +
exists → `found`; `found` + absent → `removed`; `removed` skipped, i.e.
unchanged), leaves untracked paths alone, and signals `process = true` iff
at least one path whose previous status is not `removed` exists in the
commit's tree (so a `seeking` path that stays absent and a `removed` path
give no signal). -/
theorem c3_status_tracker_table (c : Commit) (paths : List String)
    (st : String → fileStatus) (hnd : paths.Nodup) :
    (∀ p ∈ paths,
        (updateStatuses c paths st).1 p = statusTable (st p) (fileExists c p))
      ∧ (∀ p, p ∉ paths → (updateStatuses c paths st).1 p = st p)
      ∧ ((updateStatuses c paths st).2
          = paths.any (fun p => !(st p == .removed) && fileExists c p)) := by
  refine ⟨?_, ?_, ?_⟩
  · intro p hp
    exact fold_upd_fst_mem c paths (st, false) p hp hnd
  · intro p hp
    exact fold_upd_fst_not_mem c paths (st, false) p hp
  · have h := fold_upd_snd c paths (st, false) hnd
    simpa using h

/-- Witness for `c3_status_tracker_table` on a concrete commit: at `linB`
a `seeking` `file.txt` flips per the table. -/
theorem c3_status_tracker_table_witness :
    (updateStatuses linB ["file.txt"] (fun _ => .seeking)).1 "file.txt"
      = statusTable fileStatus.seeking (fileExists linB "file.txt") :=
  (c3_status_tracker_table linB ["file.txt"] (fun _ => .seeking)
      (by decide)).1 "file.txt" (by decide)

/-! ### C4: behavior at a merge/root fan-out -/

/-- Diamond scenario, root `A` (empty tree). -/
def diaA : Commit := { hash := "A", parents := [], committerWhen := 1, files := [] }

/-- Diamond scenario: branch commit `B` touches `f`. -/
def diaB : Commit := { hash := "B", parents := ["A"], committerWhen := 2, files := ["f"] }

/-- Diamond scenario: branch commit `C` touches `f`. -/
def diaC : Commit := { hash := "C", parents := ["A"], committerWhen := 3, files := ["f"] }

/-- Diamond scenario: merge commit `D` with parents `B` and `C`. -/
def diaD : Commit := { hash := "D", parents := ["B", "C"], committerWhen := 4, files := [] }

/-- The diamond history `A → (B, C) → D`. -/
def diaRepo : Repo := { commits := [diaA, diaB, diaC, diaD] }

/-- **C4** (confirmed).  At a commit with zero or at least two parents the
walker (a) computes `branchProcess` for a parent as: some tracked path has a
non-`removed` status and exists in the parent's tree, or some tracked path
is still `seeking`; (b) hands the parents, in recorded order, to the parent
loop after marking the commit seen; and (c) for each resolvable parent it
skips the parent exactly when `branchProcess` is false or the parent is an
ancestor of the begin revision, and otherwise recurses into it with a
`copyMap` copy of the status map and the threaded seen set. -/
theorem c4_merge_fanout (r : Repo) (beginH : String) (afuel : Nat)
    (paths : List String) (acc : accStrategy) (fuel : Nat) (current : Commit)
    (seen : List String) (st : String → fileStatus) (cm : CommitMap) :
    (∀ p : Commit, branchProcess p paths st = true ↔
        ((∃ q ∈ paths, st q ≠ .removed ∧ fileExists p q = true)
          ∨ (∃ q ∈ paths, st q = .seeking)))
      ∧ (current.parents.length ≠ 1 → seen.contains current.hash = false →
          accumulateCommitsForPaths r beginH afuel paths acc (fuel + 1)
              current seen st cm
            = walkParents r beginH afuel paths
                (fun c s t m =>
                  accumulateCommitsForPaths r beginH afuel paths acc fuel
                    c s t m)
                current.parents 0 current.hash (current.hash :: seen) st cm)
      ∧ (∀ (pHash : String) (rest : List String) (idx : Nat)
            (curHash : String) (p : Commit)
            (rec : Commit → List String → (String → fileStatus) → CommitMap →
              Except WalkErr (List String × CommitMap)),
          r.find? pHash = some p →
          walkParents r beginH afuel paths rec (pHash :: rest) idx curHash
              seen st cm
            = if branchProcess p paths st = false
                  ∨ ancestorOf r afuel p.hash beginH = true then
                walkParents r beginH afuel paths rec rest (idx + 1) curHash
                  seen st cm
              else
                match rec p seen (copyMap st) cm with
                | .error e => .error e
                | .ok (seen', cm') =>
                  walkParents r beginH afuel paths rec rest (idx + 1) curHash
                    seen' st cm') := by
  refine ⟨?_, ?_, ?_⟩
  · intro p
    constructor
    · intro h
      obtain ⟨q, hq, hb⟩ := List.any_eq_true.mp h
      simp only [Bool.and_eq_true, Bool.or_eq_true, Bool.not_eq_true',
        beq_eq_false_iff_ne, beq_iff_eq] at hb
      rcases hb with ⟨hne, he | hs⟩
      · exact Or.inl ⟨q, hq, hne, he⟩
      · exact Or.inr ⟨q, hq, hs⟩
    · rintro (⟨q, hq, hne, he⟩ | ⟨q, hq, hs⟩) <;>
        refine List.any_eq_true.mpr ⟨q, hq, ?_⟩
      · simp [hne, he]
      · simp [hs]
  · intro hlen hseen
    rcases hps : current.parents with _ | ⟨a, _ | ⟨b, t⟩⟩
    · simp only [accumulateCommitsForPaths, hseen, Bool.false_eq_true,
        if_false, hps]
    · exact absurd (by rw [hps]; rfl) hlen
    · simp only [accumulateCommitsForPaths, hseen, Bool.false_eq_true,
        if_false, hps]
  · intro pHash rest idx curHash p rec hfind
    by_cases hbp : branchProcess p paths st = true
    · by_cases hanc : ancestorOf r afuel p.hash beginH = true
      · simp [walkParents, hfind, hbp, hanc]
      · simp [walkParents, hfind, hbp, hanc]
    · have hbp' : branchProcess p paths st = false := by
        simpa using hbp
      simp [walkParents, hfind, hbp']

/-- Witness for `c4_merge_fanout`: at the diamond merge `D` the walk drops
into the parent loop on `[B, C]` in recorded order. -/
theorem c4_merge_fanout_witness :
    accumulateCommitsForPaths diaRepo "A" 6 ["f"] .addAlways (5 + 1) diaD []
        (fun _ => .found) []
      = walkParents diaRepo "A" 6 ["f"]
          (fun c s t m =>
            accumulateCommitsForPaths diaRepo "A" 6 ["f"] .addAlways 5
              c s t m)
          diaD.parents 0 diaD.hash [diaD.hash] (fun _ => .found) [] :=
  (c4_merge_fanout diaRepo "A" 6 ["f"] .addAlways 5 diaD []
      (fun _ => .found) []).2.1 (by decide) (by decide)

/-! ### C10: the accumulator only ever sees single-parent commits -/

theorem lookup_insertCommit (m : CommitMap) (c : Commit) (h : String)
    (c' : Commit) :
    lookupCommit (insertCommit m c) h = some c' →
    lookupCommit m h = some c' ∨ c' = c := by
  intro hl
  rw [lookupCommit, insertCommit] at hl
  cases hh : (c.hash == h) with
  | true =>
    right
    simp only [List.find?, hh, Option.map_some] at hl
    simpa using hl.symm
  | false =>
    left
    simp only [List.find?, hh] at hl
    exact hl

theorem runAcc_lookup (r : Repo) (afuel : Nat) (acc : accStrategy)
    (c : Commit) (m : CommitMap) (h : String) (c' : Commit) :
    lookupCommit (runAcc r afuel acc c m).1 h = some c' →
    lookupCommit m h = some c' ∨ c' = c := by
  intro hl
  cases acc with
  | addAlways => exact lookup_insertCommit m c h c' hl
  | addIfNotAncestor base =>
    by_cases ha : ancestorOf r afuel c.hash base = true
    · rw [runAcc, if_pos ha] at hl
      exact Or.inl hl
    · rw [runAcc, if_neg ha] at hl
      exact lookup_insertCommit m c h c' hl

theorem fastAcc_lookup (r : Repo) (afuel : Nat) (acc : accStrategy)
    (c : Commit) (process : Bool) (m : CommitMap) (h : String) (c' : Commit) :
    lookupCommit (fastAcc r afuel acc c process m).1 h = some c' →
    lookupCommit m h = some c' ∨ c' = c := by
  intro hl
  cases process with
  | false => exact Or.inl hl
  | true => exact runAcc_lookup r afuel acc c m h c' hl

/-- Entries added by the parent loop all come from recursive walks; the
property "new result entries have exactly one parent" is inherited from the
recursive walk `rec`. -/
theorem walkParents_single_parent (r : Repo) (beginH : String) (afuel : Nat)
    (paths : List String)
    (rec : Commit → List String → (String → fileStatus) → CommitMap →
      Except WalkErr (List String × CommitMap))
    (hrec : ∀ (p : Commit) (seen : List String) (st : String → fileStatus)
        (cm : CommitMap) (seen' : List String) (cm' : CommitMap),
        rec p seen st cm = .ok (seen', cm') →
        ∀ h c, lookupCommit cm' h = some c →
          lookupCommit cm h = some c ∨ c.parents.length = 1) :
    ∀ (l : List String) (idx : Nat) (curHash : String) (seen : List String)
      (st : String → fileStatus) (cm : CommitMap) (seen' : List String)
      (cm' : CommitMap),
      walkParents r beginH afuel paths rec l idx curHash seen st cm
          = .ok (seen', cm') →
      ∀ h c, lookupCommit cm' h = some c →
        lookupCommit cm h = some c ∨ c.parents.length = 1 := by
  intro l
  induction l with
  | nil =>
    intro idx curHash seen st cm seen' cm' hw h c hl
    simp only [walkParents, Except.ok.injEq, Prod.mk.injEq] at hw
    rw [← hw.2] at hl
    exact Or.inl hl
  | cons pHash rest ih =>
    intro idx curHash seen st cm seen' cm' hw h c hl
    cases hfind : r.find? pHash with
    | none =>
      simp only [walkParents, hfind] at hw
      exact Except.noConfusion hw
    | some p =>
      cases hbp : branchProcess p paths st with
      | false =>
        simp only [walkParents, hfind, hbp, Bool.not_false, if_true] at hw
        exact ih (idx + 1) curHash seen st cm seen' cm' hw h c hl
      | true =>
        cases hanc : ancestorOf r afuel p.hash beginH with
        | true =>
          simp only [walkParents, hfind, hbp, hanc, Bool.not_true,
            Bool.false_eq_true, if_false, if_true] at hw
          exact ih (idx + 1) curHash seen st cm seen' cm' hw h c hl
        | false =>
          simp only [walkParents, hfind, hbp, hanc, Bool.not_true,
            Bool.false_eq_true, if_false] at hw
          cases hrw : rec p seen (copyMap st) cm with
          | error e =>
            simp only [hrw] at hw
            exact Except.noConfusion hw
          | ok pr =>
            obtain ⟨seen1, cm1⟩ := pr
            simp only [hrw] at hw
            rcases ih (idx + 1) curHash seen1 st cm1 seen' cm' hw h c hl with
              hin | hsp
            · exact hrec p seen (copyMap st) cm seen1 cm1 hrw h c hin
            · exact Or.inr hsp

/-- **C10** (confirmed).  Every entry of the result map produced by a walk
either was already in the map handed in, or is a commit with exactly one
parent: the accumulation strategy runs only on the single-parent fast path,
so a root (zero parents) or a merge (two or more parents) never enters the
result set through its own visit. -/
theorem c10_only_single_parent_commits_accumulated (r : Repo)
    (beginH : String) (afuel : Nat) (paths : List String)
    (acc : accStrategy) :
    ∀ (fuel : Nat) (current : Commit) (seen : List String)
      (st : String → fileStatus) (cm : CommitMap) (seen' : List String)
      (cm' : CommitMap),
      accumulateCommitsForPaths r beginH afuel paths acc fuel current seen
          st cm = .ok (seen', cm') →
      ∀ h c, lookupCommit cm' h = some c →
        lookupCommit cm h = some c ∨ c.parents.length = 1 := by
  intro fuel
  induction fuel with
  | zero =>
    intro current seen st cm seen' cm' hw
    simp only [accumulateCommitsForPaths] at hw
    cases hw
  | succ fuel ih =>
    intro current seen st cm seen' cm' hw h c hl
    by_cases hseen : seen.contains current.hash = true
    · simp only [accumulateCommitsForPaths, hseen, if_true, Except.ok.injEq,
        Prod.mk.injEq] at hw
      rw [← hw.2] at hl
      exact Or.inl hl
    · have hseen' : seen.contains current.hash = false := by simpa using hseen
      rcases hps : current.parents with _ | ⟨a, _ | ⟨b, t⟩⟩
      · simp only [accumulateCommitsForPaths, hseen', Bool.false_eq_true,
          if_false, hps] at hw
        exact walkParents_single_parent r beginH afuel paths _
          (fun p s t m s' m' hrw => ih p s t m s' m' hrw)
          [] 0 current.hash (current.hash :: seen) st cm seen' cm' hw h c hl
      · rcases hfa : fastAcc r afuel acc current
            (updateStatuses current paths st).2 cm with ⟨cm1, cont⟩
        have hc1 : ∀ c'', lookupCommit cm1 h = some c'' →
            lookupCommit cm h = some c'' ∨ c''.parents.length = 1 := by
          intro c'' hx
          rcases fastAcc_lookup r afuel acc current
              (updateStatuses current paths st).2 cm h c''
              (by rw [hfa]; exact hx) with hin | hcur
          · exact Or.inl hin
          · right; rw [hcur, hps]; rfl
        cases cont with
        | false =>
          simp only [accumulateCommitsForPaths, hseen', Bool.false_eq_true,
            if_false, hps, hfa, Except.ok.injEq, Prod.mk.injEq] at hw
          rw [← hw.2] at hl
          exact hc1 c hl
        | true =>
          cases hfind : r.find? a with
          | none =>
            simp only [accumulateCommitsForPaths, hseen', Bool.false_eq_true,
              if_false, hps, hfa, hfind] at hw
            exact Except.noConfusion hw
          | some next =>
            simp only [accumulateCommitsForPaths, hseen', Bool.false_eq_true,
              if_false, hps, hfa, hfind] at hw
            rcases ih next (current.hash :: seen)
                (updateStatuses current paths st).1 cm1 seen' cm' hw h c hl with
              hin | hsp
            · exact hc1 c hin
            · exact Or.inr hsp
      · simp only [accumulateCommitsForPaths, hseen', Bool.false_eq_true,
          if_false, hps] at hw
        exact walkParents_single_parent r beginH afuel paths _
          (fun p s t m s' m' hrw => ih p s t m s' m' hrw)
          (a :: b :: t) 0 current.hash (current.hash :: seen) st cm seen' cm'
          hw h c hl

/-- Witness for `c10_only_single_parent_commits_accumulated`: on the
diamond's added-file walk, the reported commit `B` has exactly one parent. -/
theorem c10_only_single_parent_commits_accumulated_witness :
    lookupCommit [] "B" = some diaB ∨ diaB.parents.length = 1 :=
  c10_only_single_parent_commits_accumulated diaRepo "A" 6 ["f"] .addAlways
    6 diaD [] (fun _ => .found) []
    (["C", "A", "B", "D"] : List String)
    [("C", diaC), ("B", diaB)] (by rfl) "B" diaB (by rfl)

/-! ### C6: the seen set -/

theorem repoFind_self (r : Repo) (h : String) (p : Commit)
    (hf : r.find? h = some p) : r.find? p.hash = some p := by
  have hph : p.hash = h := by
    have := List.find?_some hf
    simpa using this
  rw [hph]
  exact hf

/-- Invariant preservation through the parent loop: any property of the
(seen set, result map) pair preserved by the recursive walk on parents drawn
from `l0` is preserved by `walkParents` on a sublist of `l0`. -/
theorem walkParents_ok_invariant (r : Repo) (beginH : String) (afuel : Nat)
    (paths : List String) (P : List String → CommitMap → Prop)
    (rec : Commit → List String → (String → fileStatus) → CommitMap →
      Except WalkErr (List String × CommitMap))
    (l0 : List String)
    (hrec : ∀ (p : Commit) (seen : List String) (st : String → fileStatus)
        (cm : CommitMap) (seen' : List String) (cm' : CommitMap),
        r.find? p.hash = some p → p.hash ∈ l0 →
        rec p seen (copyMap st) cm = .ok (seen', cm') →
        P seen cm → P seen' cm') :
    ∀ (l : List String), (∀ x ∈ l, x ∈ l0) →
      ∀ (idx : Nat) (curHash : String) (seen : List String)
        (st : String → fileStatus) (cm : CommitMap) (seen' : List String)
        (cm' : CommitMap),
        walkParents r beginH afuel paths rec l idx curHash seen st cm
            = .ok (seen', cm') →
        P seen cm → P seen' cm' := by
  intro l
  induction l with
  | nil =>
    intro _ idx curHash seen st cm seen' cm' hw hP
    simp only [walkParents, Except.ok.injEq, Prod.mk.injEq] at hw
    rw [← hw.1, ← hw.2]
    exact hP
  | cons pHash rest ih =>
    intro hsub idx curHash seen st cm seen' cm' hw hP
    have hsub' : ∀ x ∈ rest, x ∈ l0 :=
      fun x hx => hsub x (List.mem_cons_of_mem pHash hx)
    cases hfind : r.find? pHash with
    | none =>
      simp only [walkParents, hfind] at hw
      exact Except.noConfusion hw
    | some p =>
      have hhash : p.hash = pHash := by
        have := List.find?_some hfind
        simpa using this
      cases hbp : branchProcess p paths st with
      | false =>
        simp only [walkParents, hfind, hbp, Bool.not_false, if_true] at hw
        exact ih hsub' (idx + 1) curHash seen st cm seen' cm' hw hP
      | true =>
        cases hanc : ancestorOf r afuel p.hash beginH with
        | true =>
          simp only [walkParents, hfind, hbp, hanc, Bool.not_true,
            Bool.false_eq_true, if_false, if_true] at hw
          exact ih hsub' (idx + 1) curHash seen st cm seen' cm' hw hP
        | false =>
          simp only [walkParents, hfind, hbp, hanc, Bool.not_true,
            Bool.false_eq_true, if_false] at hw
          cases hrw : rec p seen (copyMap st) cm with
          | error e =>
            simp only [hrw] at hw
            exact Except.noConfusion hw
          | ok pr =>
            obtain ⟨seen1, cm1⟩ := pr
            simp only [hrw] at hw
            have hP1 : P seen1 cm1 :=
              hrec p seen st cm seen1 cm1 (repoFind_self r pHash p hfind)
                (by rw [hhash]; exact hsub pHash (List.mem_cons_self pHash rest))
                hrw hP
            exact ih hsub' (idx + 1) curHash seen1 st cm1 seen' cm' hw hP1

/-- A successful walk preserves distinctness of the seen list: every commit
is marked before processing and marks are never duplicated, so each commit
is visited at most once per walk. -/
theorem accumulate_nodup (r : Repo) (beginH : String) (afuel : Nat)
    (paths : List String) (acc : accStrategy) :
    ∀ (fuel : Nat) (current : Commit) (seen : List String)
      (st : String → fileStatus) (cm : CommitMap) (seen' : List String)
      (cm' : CommitMap),
      accumulateCommitsForPaths r beginH afuel paths acc fuel current seen
          st cm = .ok (seen', cm') →
      seen.Nodup → seen'.Nodup := by
  intro fuel
  induction fuel with
  | zero =>
    intro current seen st cm seen' cm' hw _
    simp only [accumulateCommitsForPaths] at hw
    exact Except.noConfusion hw
  | succ fuel ih =>
    intro current seen st cm seen' cm' hw hnd
    by_cases hseen : seen.contains current.hash = true
    · simp only [accumulateCommitsForPaths, hseen, if_true, Except.ok.injEq,
        Prod.mk.injEq] at hw
      rw [← hw.1]
      exact hnd
    · have hseen' : seen.contains current.hash = false := by simpa using hseen
      have hmem : current.hash ∉ seen := by simpa using hseen'
      have hnd1 : (current.hash :: seen).Nodup :=
        List.nodup_cons.mpr ⟨hmem, hnd⟩
      rcases hps : current.parents with _ | ⟨a, _ | ⟨b, t⟩⟩
      · simp only [accumulateCommitsForPaths, hseen', Bool.false_eq_true,
          if_false, hps] at hw
        exact walkParents_ok_invariant r beginH afuel paths
          (fun s _ => s.Nodup) _ []
          (fun p s t m s' m' _ _ hrw hP => ih p s t m s' m' hrw hP)
          [] (by simp) 0 current.hash (current.hash :: seen) st cm seen' cm'
          hw hnd1
      · rcases hfa : fastAcc r afuel acc current
            (updateStatuses current paths st).2 cm with ⟨cm1, cont⟩
        cases cont with
        | false =>
          simp only [accumulateCommitsForPaths, hseen', Bool.false_eq_true,
            if_false, hps, hfa, Except.ok.injEq, Prod.mk.injEq] at hw
          rw [← hw.1]
          exact hnd1
        | true =>
          cases hfind : r.find? a with
          | none =>
            simp only [accumulateCommitsForPaths, hseen', Bool.false_eq_true,
              if_false, hps, hfa, hfind] at hw
            exact Except.noConfusion hw
          | some next =>
            simp only [accumulateCommitsForPaths, hseen', Bool.false_eq_true,
              if_false, hps, hfa, hfind] at hw
            exact ih next (current.hash :: seen)
              (updateStatuses current paths st).1 cm1 seen' cm' hw hnd1
      · simp only [accumulateCommitsForPaths, hseen', Bool.false_eq_true,
          if_false, hps] at hw
        exact walkParents_ok_invariant r beginH afuel paths
          (fun s _ => s.Nodup) _ (a :: b :: t)
          (fun p s t' m s' m' _ _ hrw hP => ih p s t' m s' m' hrw hP)
          (a :: b :: t) (fun x hx => hx) 0 current.hash
          (current.hash :: seen) st cm seen' cm' hw hnd1

/-- **C6** (confirmed).  (a) A walk step on a commit already in the seen set
returns immediately, leaving the seen set and result map untouched; (b) a
walk started from a duplicate-free seen set (in particular the empty one)
produces a duplicate-free seen list, i.e. every commit is visited at most
once per walk; (c) `computeDiffCommits` hands each of the three
class-specific walks its own fresh (empty) seen set while threading the
shared result map; (d) on the diamond history the added-file walk visits the
shared ancestor `A` exactly once and reports it at most once. -/
theorem c6_seen_set_visits_each_commit_once :
    (∀ (r : Repo) (beginH : String) (afuel : Nat) (paths : List String)
        (acc : accStrategy) (fuel : Nat) (current : Commit)
        (seen : List String) (st : String → fileStatus) (cm : CommitMap),
        seen.contains current.hash = true →
        accumulateCommitsForPaths r beginH afuel paths acc (fuel + 1)
            current seen st cm = .ok (seen, cm))
      ∧ (∀ (r : Repo) (beginH : String) (afuel : Nat) (paths : List String)
          (acc : accStrategy) (fuel : Nat) (current : Commit)
          (seen : List String) (st : String → fileStatus) (cm : CommitMap)
          (seen' : List String) (cm' : CommitMap),
          accumulateCommitsForPaths r beginH afuel paths acc fuel current
              seen st cm = .ok (seen', cm') →
          seen.Nodup → seen'.Nodup)
      ∧ (∀ (r : Repo) (beginC endC : Commit) (afuel fuel : Nat)
          (cl : changeList),
          computeDiffCommitsSet r beginC endC afuel fuel cl
            = match accumulateCommitsForPaths r beginC.hash afuel cl.added
                  .addAlways fuel endC [] (fun _ => .found) [] with
              | .error e => .error e
              | .ok (_, cm1) =>
                match accumulateCommitsForPaths r beginC.hash afuel
                    cl.removed (.addIfNotAncestor endC.hash) fuel endC []
                    (fun _ => .seeking) cm1 with
                | .error e => .error e
                | .ok (_, cm2) =>
                  match accumulateCommitsForPaths r beginC.hash afuel
                      cl.changed (.addIfNotAncestor endC.hash) fuel endC []
                      (fun _ => .found) cm2 with
                  | .error e => .error e
                  | .ok (_, cm3) => .ok cm3)
      ∧ (accumulateCommitsForPaths diaRepo "A" 6 ["f"] .addAlways 6 diaD []
            (fun _ => .found) []
          = .ok (["C", "A", "B", "D"], [("C", diaC), ("B", diaB)])
        ∧ (["C", "A", "B", "D"] : List String).count "A" = 1
        ∧ (([("C", diaC), ("B", diaB)] : CommitMap).filter
            (fun kv => kv.1 == "A")).length ≤ 1) := by
  refine ⟨?_, ?_, ?_, ?_⟩
  · intro r beginH afuel paths acc fuel current seen st cm hseen
    simp only [accumulateCommitsForPaths, hseen, if_true]
  · intro r beginH afuel paths acc fuel current seen st cm seen' cm' hw hnd
    exact accumulate_nodup r beginH afuel paths acc fuel current seen st cm
      seen' cm' hw hnd
  · intro r beginC endC afuel fuel cl
    rfl
  · exact ⟨rfl, by decide, by decide⟩

/-- Witness for `c6_seen_set_visits_each_commit_once`: the immediate-return
and at-most-once components applied on the diamond history. -/
theorem c6_seen_set_visits_each_commit_once_witness :
    accumulateCommitsForPaths diaRepo "A" 6 ["f"] .addAlways (5 + 1) diaA
        ["A"] (fun _ => .found) [] = .ok (["A"], [])
      ∧ (["C", "A", "B", "D"] : List String).Nodup :=
  ⟨c6_seen_set_visits_each_commit_once.1 diaRepo "A" 6 ["f"] .addAlways 5
      diaA ["A"] (fun _ => .found) [] (by rfl),
    c6_seen_set_visits_each_commit_once.2.1 diaRepo "A" 6 ["f"] .addAlways
      6 diaD [] (fun _ => .found) [] (["C", "A", "B", "D"] : List String)
      [("C", diaC), ("B", diaB)] (by rfl) (by decide)⟩

/-! ### C9: unresolvable parents are fatal -/

/-- If some parent hash in the remaining loop list does not resolve, the
parent loop ends in an error (its own `fatalParent` at that index, or an
error propagated out of an earlier descent). -/
theorem walkParents_err (r : Repo) (beginH : String) (afuel : Nat)
    (paths : List String)
    (rec : Commit → List String → (String → fileStatus) → CommitMap →
      Except WalkErr (List String × CommitMap)) :
    ∀ (l : List String), (∃ pH ∈ l, r.find? pH = none) →
      ∀ (idx : Nat) (curHash : String) (seen : List String)
        (st : String → fileStatus) (cm : CommitMap),
        ∃ e, walkParents r beginH afuel paths rec l idx curHash seen st cm
          = .error e := by
  intro l
  induction l with
  | nil =>
    rintro ⟨pH, hmem, _⟩
    cases hmem
  | cons pHash rest ih =>
    rintro ⟨pH, hmem, hnone⟩ idx curHash seen st cm
    cases hfind : r.find? pHash with
    | none =>
      exact ⟨.fatalParent curHash idx, by simp only [walkParents, hfind]⟩
    | some p =>
      have hrest : ∃ pH ∈ rest, r.find? pH = none := by
        rcases List.mem_cons.mp hmem with he | hm
        · subst he
          rw [hfind] at hnone
          exact Option.noConfusion hnone
        · exact ⟨pH, hm, hnone⟩
      cases hbp : branchProcess p paths st with
      | false =>
        obtain ⟨e, heq⟩ := ih hrest (idx + 1) curHash seen st cm
        exact ⟨e, by
          simp only [walkParents, hfind, hbp, Bool.not_false, if_true]
          exact heq⟩
      | true =>
        cases hanc : ancestorOf r afuel p.hash beginH with
        | true =>
          obtain ⟨e, heq⟩ := ih hrest (idx + 1) curHash seen st cm
          exact ⟨e, by
            simp only [walkParents, hfind, hbp, hanc, Bool.not_true,
              Bool.false_eq_true, if_false, if_true]
            exact heq⟩
        | false =>
          cases hrw : rec p seen (copyMap st) cm with
          | error e =>
            exact ⟨e, by
              simp only [walkParents, hfind, hbp, hanc, Bool.not_true,
                Bool.false_eq_true, if_false, hrw]⟩
          | ok pr =>
            obtain ⟨seen1, cm1⟩ := pr
            obtain ⟨e, heq⟩ := ih hrest (idx + 1) curHash seen1 st cm1
            exact ⟨e, by
              simp only [walkParents, hfind, hbp, hanc, Bool.not_true,
                Bool.false_eq_true, if_false, hrw]
              exact heq⟩

/-- **C9** (confirmed).  (a) Whenever the walk is at an unseen commit whose
claimed parent does not resolve — on the single-parent fast path (provided
the accumulator does not bail out first, since then the parent is never
requested) as well as at a merge fan-out — it ends in an error: the
`logger.Fatalf` at the fan-out, or the nil-pointer dereference that follows
the debug-logged failure on the fast path; the walk never continues past the
unresolvable parent.  (b) Any output of `computeDiffCommits` requires all
three class walks to have completed without error, so an aborted walk yields
no partial result. -/
theorem c9_unresolvable_parent_is_fatal :
    (∀ (r : Repo) (beginH : String) (afuel : Nat) (paths : List String)
        (acc : accStrategy) (fuel : Nat) (current : Commit)
        (seen : List String) (st : String → fileStatus) (cm : CommitMap),
        seen.contains current.hash = false →
        ((∃ pH, current.parents = [pH] ∧ r.find? pH = none
            ∧ ((updateStatuses current paths st).2 = true →
                (runAcc r afuel acc current cm).2 = true))
          ∨ (current.parents.length ≠ 1
              ∧ ∃ pH ∈ current.parents, r.find? pH = none)) →
        ∃ e, accumulateCommitsForPaths r beginH afuel paths acc (fuel + 1)
            current seen st cm = .error e)
      ∧ (∀ (r : Repo) (beginC endC : Commit) (afuel fuel : Nat)
          (cl : changeList) (m : CommitMap),
          computeDiffCommitsSet r beginC endC afuel fuel cl = .ok m →
          ∃ s1 cm1 s2 cm2 s3,
            accumulateCommitsForPaths r beginC.hash afuel cl.added
                .addAlways fuel endC [] (fun _ => .found) []
              = .ok (s1, cm1)
            ∧ accumulateCommitsForPaths r beginC.hash afuel cl.removed
                (.addIfNotAncestor endC.hash) fuel endC []
                (fun _ => .seeking) cm1
              = .ok (s2, cm2)
            ∧ accumulateCommitsForPaths r beginC.hash afuel cl.changed
                (.addIfNotAncestor endC.hash) fuel endC []
                (fun _ => .found) cm2
              = .ok (s3, m)) := by
  constructor
  · intro r beginH afuel paths acc fuel current seen st cm hseen hbad
    rcases hbad with ⟨pH, hps, hnone, hcont⟩ | ⟨hlen, hex⟩
    · rcases hfa : fastAcc r afuel acc current
          (updateStatuses current paths st).2 cm with ⟨cm1, cont⟩
      have hcont' : cont = true := by
        cases hpr : (updateStatuses current paths st).2 with
        | false =>
          rw [fastAcc, hpr] at hfa
          simp only [Bool.false_eq_true, if_false, Prod.mk.injEq] at hfa
          exact hfa.2.symm
        | true =>
          rw [fastAcc, hpr, if_pos rfl] at hfa
          have hsnd := congrArg Prod.snd hfa
          simp only at hsnd
          rw [← hsnd]
          exact hcont hpr
      subst hcont'
      exact ⟨.nilPanic current.hash, by
        simp only [accumulateCommitsForPaths, hseen, Bool.false_eq_true,
          if_false, hps, hfa, hnone]⟩
    · rcases hps : current.parents with _ | ⟨a, _ | ⟨b, t⟩⟩
      · rw [hps] at hex
        obtain ⟨pH, hmem, _⟩ := hex
        cases hmem
      · exact absurd (by rw [hps]; rfl) hlen
      · rw [hps] at hex
        obtain ⟨e, heq⟩ := walkParents_err r beginH afuel paths
          (fun c s t m =>
            accumulateCommitsForPaths r beginH afuel paths acc fuel c s t m)
          (a :: b :: t) hex 0 current.hash (current.hash :: seen) st cm
        exact ⟨e, by
          simp only [accumulateCommitsForPaths, hseen, Bool.false_eq_true,
            if_false, hps]
          exact heq⟩
  · intro r beginC endC afuel fuel cl m hm
    rw [computeDiffCommitsSet] at hm
    cases h1 : accumulateCommitsForPaths r beginC.hash afuel cl.added
        .addAlways fuel endC [] (fun _ => .found) [] with
    | error e => rw [h1] at hm; exact Except.noConfusion hm
    | ok pr1 =>
      obtain ⟨s1, cm1⟩ := pr1
      rw [h1] at hm
      cases h2 : accumulateCommitsForPaths r beginC.hash afuel cl.removed
          (.addIfNotAncestor endC.hash) fuel endC [] (fun _ => .seeking)
          cm1 with
      | error e =>
        simp only [h2] at hm
        exact Except.noConfusion hm
      | ok pr2 =>
        obtain ⟨s2, cm2⟩ := pr2
        simp only [h2] at hm
        cases h3 : accumulateCommitsForPaths r beginC.hash afuel cl.changed
            (.addIfNotAncestor endC.hash) fuel endC [] (fun _ => .found)
            cm2 with
        | error e =>
          simp only [h3] at hm
          exact Except.noConfusion hm
        | ok pr3 =>
          obtain ⟨s3, cm3⟩ := pr3
          simp only [h3, Except.ok.injEq] at hm
          exact ⟨s1, cm1, s2, cm2, s3, rfl, h2, by rw [← hm]; exact h3⟩

/-- Commit claiming a parent hash that the store cannot resolve. -/
def badX : Commit :=
  { hash := "X", parents := ["missing"], committerWhen := 1, files := ["f"] }

/-- A store holding only `badX`. -/
def badRepo : Repo := { commits := [badX] }

/-- Witness for `c9_unresolvable_parent_is_fatal`: the walk over `badRepo`
errors at `badX`'s unresolvable sole parent. -/
theorem c9_unresolvable_parent_is_fatal_witness :
    ∃ e, accumulateCommitsForPaths badRepo "A" 3 ["f"] .addAlways (2 + 1)
        badX [] (fun _ => .found) [] = .error e :=
  c9_unresolvable_parent_is_fatal.1 badRepo "A" 3 ["f"] .addAlways 2 badX
    [] (fun _ => .found) [] (by rfl)
    (Or.inl ⟨"missing", rfl, rfl, fun _ => rfl⟩)

/-! ### C1: the result window -/

theorem repoFind_hash (r : Repo) (h : String) (p : Commit)
    (hf : r.find? h = some p) : p.hash = h := by
  have := List.find?_some hf
  simpa using this

theorem ancestorOf_self (r : Repo) : ∀ (k : Nat) (a : String),
    ancestorOf r k a a = true := by
  intro k a
  cases k with
  | zero => simp [ancestorOf]
  | succ k => simp [ancestorOf]

theorem ancestorOf_succ_eq (r : Repo) (k : Nat) (a d : String) :
    ancestorOf r (k + 1) a d
      = (a == d ||
          match r.find? d with
          | some c => c.parents.any (fun p => ancestorOf r k a p)
          | none => false) := rfl

theorem ancestorOf_succ_mono (r : Repo) : ∀ (k : Nat) (a d : String),
    ancestorOf r k a d = true → ancestorOf r (k + 1) a d = true := by
  intro k
  induction k with
  | zero =>
    intro a d h
    simp only [ancestorOf] at h
    rw [ancestorOf_succ_eq, h, Bool.true_or]
  | succ k ih =>
    intro a d h
    rw [ancestorOf_succ_eq] at h
    rw [ancestorOf_succ_eq]
    cases hd : (a == d) with
    | true => rw [Bool.true_or]
    | false =>
      rw [hd, Bool.false_or] at h
      rw [Bool.false_or]
      cases hfind : r.find? d with
      | none =>
        rw [hfind] at h
        exact Bool.noConfusion h
      | some c =>
        rw [hfind] at h
        have h' : c.parents.any (fun p => ancestorOf r k a p) = true := h
        show c.parents.any (fun p => ancestorOf r (k + 1) a p) = true
        obtain ⟨p, hp, hpa⟩ := List.any_eq_true.mp h'
        exact List.any_eq_true.mpr ⟨p, hp, ih a p hpa⟩

theorem ancestorOf_le_mono (r : Repo) (a d : String) {k K : Nat}
    (hle : k ≤ K) (h : ancestorOf r k a d = true) :
    ancestorOf r K a d = true := by
  induction hle with
  | refl => exact h
  | step _ ih => exact ancestorOf_succ_mono r _ a d ih

/-- Extending the ancestor end of a witnessed ancestry chain by one parent
edge. -/
theorem ancestorOf_parent_step (r : Repo) :
    ∀ (k : Nat) (a d : String) (c : Commit) (pH : String),
      ancestorOf r k a d = true → r.find? a = some c → pH ∈ c.parents →
      ancestorOf r (k + 1) pH d = true := by
  intro k
  induction k with
  | zero =>
    intro a d c pH h hfind hmem
    have had : a = d := by
      simpa using (show (a == d) = true from h)
    subst had
    rw [ancestorOf_succ_eq, hfind]
    have h0 : ancestorOf r 0 pH pH = true := by simp [ancestorOf]
    have hany : c.parents.any (fun p => ancestorOf r 0 pH p) = true :=
      List.any_eq_true.mpr ⟨pH, hmem, h0⟩
    show (pH == a || c.parents.any (fun p => ancestorOf r 0 pH p)) = true
    rw [hany, Bool.or_true]
  | succ k ih =>
    intro a d c pH h hfind hmem
    rw [ancestorOf_succ_eq] at h
    cases had : (a == d) with
    | true =>
      have haa : a = d := by simpa using had
      subst haa
      rw [ancestorOf_succ_eq, hfind]
      have hany : c.parents.any (fun p => ancestorOf r (k + 1) pH p) = true :=
        List.any_eq_true.mpr ⟨pH, hmem, ancestorOf_self r (k + 1) pH⟩
      show (pH == a || c.parents.any (fun p => ancestorOf r (k + 1) pH p))
          = true
      rw [hany, Bool.or_true]
    | false =>
      rw [had, Bool.false_or] at h
      cases hfd : r.find? d with
      | none =>
        rw [hfd] at h
        exact Bool.noConfusion h
      | some cd =>
        rw [hfd] at h
        have h' : cd.parents.any (fun p => ancestorOf r k a p) = true := h
        obtain ⟨q, hq, hqa⟩ := List.any_eq_true.mp h'
        have hstep := ih a q c pH hqa hfind hmem
        rw [ancestorOf_succ_eq, hfd]
        have hany : cd.parents.any (fun p => ancestorOf r (k + 1) pH p)
            = true :=
          List.any_eq_true.mpr ⟨q, hq, hstep⟩
        show (pH == d || cd.parents.any (fun p => ancestorOf r (k + 1) pH p))
            = true
        rw [hany, Bool.or_true]

/-- Every entry a walk adds to the result map is an ancestor of the
revision the walk started from: the walk only ever descends along parent
edges, and only the commit under visit is ever inserted. -/
theorem accumulate_ancestors (r : Repo) (beginH endH : String)
    (afuel : Nat) (paths : List String) (acc : accStrategy) :
    ∀ (fuel : Nat) (current : Commit) (seen : List String)
      (st : String → fileStatus) (cm : CommitMap) (seen' : List String)
      (cm' : CommitMap) (k : Nat),
      r.find? current.hash = some current →
      ancestorOf r k current.hash endH = true →
      k + fuel ≤ afuel →
      (∀ h c, lookupCommit cm h = some c →
        ancestorOf r afuel c.hash endH = true) →
      accumulateCommitsForPaths r beginH afuel paths acc fuel current seen
          st cm = .ok (seen', cm') →
      ∀ h c, lookupCommit cm' h = some c →
        ancestorOf r afuel c.hash endH = true := by
  intro fuel
  induction fuel with
  | zero =>
    intro current seen st cm seen' cm' k _ _ _ _ hw
    simp only [accumulateCommitsForPaths] at hw
    exact Except.noConfusion hw
  | succ fuel ih =>
    intro current seen st cm seen' cm' k hwfc hk hfuel hcm hw h c hl
    by_cases hseen : seen.contains current.hash = true
    · simp only [accumulateCommitsForPaths, hseen, if_true, Except.ok.injEq,
        Prod.mk.injEq] at hw
      rw [← hw.2] at hl
      exact hcm h c hl
    · have hseen' : seen.contains current.hash = false := by simpa using hseen
      have hcur : ancestorOf r afuel current.hash endH = true :=
        ancestorOf_le_mono r current.hash endH
          (Nat.le_trans (Nat.le_add_right k (fuel + 1)) hfuel) hk
      rcases hps : current.parents with _ | ⟨a, _ | ⟨b, t⟩⟩
      · simp only [accumulateCommitsForPaths, hseen', Bool.false_eq_true,
          if_false, hps] at hw
        exact walkParents_ok_invariant r beginH afuel paths
          (fun _ m => ∀ h c, lookupCommit m h = some c →
            ancestorOf r afuel c.hash endH = true) _ []
          (fun p s t m s' m' hfp hmem hrw hP =>
            absurd hmem (List.not_mem_nil p.hash))
          [] (by simp) 0 current.hash (current.hash :: seen) st cm seen' cm'
          hw hcm h c hl
      · rcases hfa : fastAcc r afuel acc current
            (updateStatuses current paths st).2 cm with ⟨cm1, cont⟩
        have hcm1 : ∀ h c, lookupCommit cm1 h = some c →
            ancestorOf r afuel c.hash endH = true := by
          intro h' c' hx
          rcases fastAcc_lookup r afuel acc current
              (updateStatuses current paths st).2 cm h' c'
              (by rw [hfa]; exact hx) with hin | hcurc
          · exact hcm h' c' hin
          · rw [hcurc]
            exact hcur
        cases cont with
        | false =>
          simp only [accumulateCommitsForPaths, hseen', Bool.false_eq_true,
            if_false, hps, hfa, Except.ok.injEq, Prod.mk.injEq] at hw
          rw [← hw.2] at hl
          exact hcm1 h c hl
        | true =>
          cases hfind : r.find? a with
          | none =>
            simp only [accumulateCommitsForPaths, hseen', Bool.false_eq_true,
              if_false, hps, hfa, hfind] at hw
            exact Except.noConfusion hw
          | some next =>
            simp only [accumulateCommitsForPaths, hseen', Bool.false_eq_true,
              if_false, hps, hfa, hfind] at hw
            have hnexthash : next.hash = a := repoFind_hash r a next hfind
            have hstep : ancestorOf r (k + 1) next.hash endH = true := by
              rw [hnexthash]
              exact ancestorOf_parent_step r k current.hash endH current a
                hk hwfc (by rw [hps]; exact List.mem_cons_self a [])
            exact ih next (current.hash :: seen)
              (updateStatuses current paths st).1 cm1 seen' cm' (k + 1)
              (repoFind_self r a next hfind) hstep
              (by omega) hcm1 hw h c hl
      · simp only [accumulateCommitsForPaths, hseen', Bool.false_eq_true,
          if_false, hps] at hw
        exact walkParents_ok_invariant r beginH afuel paths
          (fun _ m => ∀ h c, lookupCommit m h = some c →
            ancestorOf r afuel c.hash endH = true) _ (a :: b :: t)
          (fun p s t' m s' m' hfp hmem hrw hP =>
            ih p s (copyMap t') m s' m' (k + 1) hfp
              (ancestorOf_parent_step r k current.hash endH current p.hash
                hk hwfc (by rw [hps]; exact hmem))
              (by omega) hP hrw)
          (a :: b :: t) (fun x hx => hx) 0 current.hash
          (current.hash :: seen) st cm seen' cm' hw hcm h c hl

/-- The ancestry-gated accumulator with the end revision as its base never
retains anything: every commit the walk visits is an ancestor of the end
revision, so a gated walk returns the result map it was handed. -/
theorem accumulate_gated_no_add (r : Repo) (beginH endH : String)
    (afuel : Nat) (paths : List String) :
    ∀ (fuel : Nat) (current : Commit) (seen : List String)
      (st : String → fileStatus) (cm : CommitMap) (seen' : List String)
      (cm' : CommitMap) (k : Nat),
      r.find? current.hash = some current →
      ancestorOf r k current.hash endH = true →
      k + fuel ≤ afuel →
      accumulateCommitsForPaths r beginH afuel paths
          (.addIfNotAncestor endH) fuel current seen st cm
        = .ok (seen', cm') →
      cm' = cm := by
  intro fuel
  induction fuel with
  | zero =>
    intro current seen st cm seen' cm' k _ _ _ hw
    simp only [accumulateCommitsForPaths] at hw
    exact Except.noConfusion hw
  | succ fuel ih =>
    intro current seen st cm seen' cm' k hwfc hk hfuel hw
    by_cases hseen : seen.contains current.hash = true
    · simp only [accumulateCommitsForPaths, hseen, if_true, Except.ok.injEq,
        Prod.mk.injEq] at hw
      exact hw.2.symm
    · have hseen' : seen.contains current.hash = false := by simpa using hseen
      have hcur : ancestorOf r afuel current.hash endH = true :=
        ancestorOf_le_mono r current.hash endH
          (Nat.le_trans (Nat.le_add_right k (fuel + 1)) hfuel) hk
      rcases hps : current.parents with _ | ⟨a, _ | ⟨b, t⟩⟩
      · simp only [accumulateCommitsForPaths, hseen', Bool.false_eq_true,
          if_false, hps] at hw
        exact walkParents_ok_invariant r beginH afuel paths
          (fun _ m => m = cm) _ []
          (fun p s t m s' m' hfp hmem hrw hP =>
            absurd hmem (List.not_mem_nil p.hash))
          [] (by simp) 0 current.hash (current.hash :: seen) st cm seen' cm'
          hw rfl
      · cases hpr : (updateStatuses current paths st).2 with
        | false =>
          have hfa : fastAcc r afuel (.addIfNotAncestor endH) current
              (updateStatuses current paths st).2 cm = (cm, true) := by
            rw [fastAcc, hpr]
            simp
          cases hfind : r.find? a with
          | none =>
            simp only [accumulateCommitsForPaths, hseen', Bool.false_eq_true,
              if_false, hps, hfa, hfind] at hw
            exact Except.noConfusion hw
          | some next =>
            simp only [accumulateCommitsForPaths, hseen', Bool.false_eq_true,
              if_false, hps, hfa, hfind] at hw
            have hnexthash : next.hash = a := repoFind_hash r a next hfind
            have hstep : ancestorOf r (k + 1) next.hash endH = true := by
              rw [hnexthash]
              exact ancestorOf_parent_step r k current.hash endH current a
                hk hwfc (by rw [hps]; exact List.mem_cons_self a [])
            exact ih next (current.hash :: seen)
              (updateStatuses current paths st).1 cm seen' cm' (k + 1)
              (repoFind_self r a next hfind) hstep (by omega) hw
        | true =>
          have hfa : fastAcc r afuel (.addIfNotAncestor endH) current
              (updateStatuses current paths st).2 cm = (cm, false) := by
            rw [fastAcc, hpr, if_pos rfl, runAcc, if_pos hcur]
          simp only [accumulateCommitsForPaths, hseen', Bool.false_eq_true,
            if_false, hps, hfa, Except.ok.injEq, Prod.mk.injEq] at hw
          exact hw.2.symm
      · simp only [accumulateCommitsForPaths, hseen', Bool.false_eq_true,
          if_false, hps] at hw
        exact walkParents_ok_invariant r beginH afuel paths
          (fun _ m => m = cm) _ (a :: b :: t)
          (fun p s t' m s' m' hfp hmem hrw hP => by
            rw [← hP]
            exact ih p s (copyMap t') m s' m' (k + 1) hfp
              (ancestorOf_parent_step r k current.hash endH current p.hash
                hk hwfc (by rw [hps]; exact hmem))
              (by omega) hrw)
          (a :: b :: t) (fun x hx => hx) 0 current.hash
          (current.hash :: seen) st cm seen' cm' hw rfl

/-- **C1** (confirmed).  Under a well-formed store (the end commit resolves
to itself) and an ancestry-fuel budget at least the walk budget, every
commit in the result of `computeDiffCommits` is an ancestor of the end
revision, and no commit contributed by the two ancestry-gated walks (i.e.
present in the final map but absent from the unconditional added-file
walk's map) is an ancestor of the begin revision — the latter holds
vacuously, because the gated walks compare candidates against the *end*
revision and every visited commit is an ancestor of the end revision, so
they contribute nothing at all (see C2). -/
theorem c1_results_are_in_the_revision_window (r : Repo)
    (beginC endC : Commit) (afuel fuel : Nat) (cl : changeList)
    (m : CommitMap) (s1 : List String) (m1 : CommitMap)
    (hwf : r.find? endC.hash = some endC)
    (hfuel : fuel ≤ afuel)
    (hrun : computeDiffCommitsSet r beginC endC afuel fuel cl = .ok m)
    (hadded : accumulateCommitsForPaths r beginC.hash afuel cl.added
        .addAlways fuel endC [] (fun _ => .found) [] = .ok (s1, m1)) :
    (∀ h c, lookupCommit m h = some c →
        ancestorOf r afuel c.hash endC.hash = true)
      ∧ (∀ h c, lookupCommit m h = some c → lookupCommit m1 h = none →
          ancestorOf r afuel c.hash beginC.hash = false) := by
  rw [computeDiffCommitsSet, hadded] at hrun
  cases h2 : accumulateCommitsForPaths r beginC.hash afuel cl.removed
      (.addIfNotAncestor endC.hash) fuel endC [] (fun _ => .seeking)
      m1 with
  | error e =>
    simp only [h2] at hrun
    exact Except.noConfusion hrun
  | ok pr2 =>
    obtain ⟨s2, m2⟩ := pr2
    simp only [h2] at hrun
    cases h3 : accumulateCommitsForPaths r beginC.hash afuel cl.changed
        (.addIfNotAncestor endC.hash) fuel endC [] (fun _ => .found)
        m2 with
    | error e =>
      simp only [h3] at hrun
      exact Except.noConfusion hrun
    | ok pr3 =>
      obtain ⟨s3, m3⟩ := pr3
      simp only [h3, Except.ok.injEq] at hrun
      have hm2 : m2 = m1 :=
        accumulate_gated_no_add r beginC.hash endC.hash afuel cl.removed
          fuel endC [] (fun _ => .seeking) m1 s2 m2 0 hwf
          (ancestorOf_self r 0 endC.hash) (by omega) h2
      have hm3 : m3 = m2 :=
        accumulate_gated_no_add r beginC.hash endC.hash afuel cl.changed
          fuel endC [] (fun _ => .found) m2 s3 m3 0 hwf
          (ancestorOf_self r 0 endC.hash) (by omega) h3
      have hmm : m = m1 := by
        rw [← hrun, hm3, hm2]
      constructor
      · intro h c hl
        rw [hmm] at hl
        exact accumulate_ancestors r beginC.hash endC.hash afuel cl.added
          .addAlways fuel endC [] (fun _ => .found) [] s1 m1 0 hwf
          (ancestorOf_self r 0 endC.hash) (by omega)
          (fun h' c' hx => by
            simp [lookupCommit] at hx)
          hadded h c hl
      · intro h c hl hnone
        rw [hmm] at hl
        rw [hl] at hnone
        exact Option.noConfusion hnone

/-- Witness for `c1_results_are_in_the_revision_window` on the diamond
history: the reported commit `B` is an ancestor of the end revision `D`. -/
theorem c1_results_are_in_the_revision_window_witness :
    ancestorOf diaRepo 6 diaB.hash diaD.hash = true :=
  (c1_results_are_in_the_revision_window diaRepo diaA diaD 6 6
      { added := ["f"], removed := [], changed := [] }
      [("C", diaC), ("B", diaB)] ["C", "A", "B", "D"]
      [("C", diaC), ("B", diaB)]
      (by rfl) (by omega) (by rfl) (by rfl)).1
    "B" diaB (by rfl)

/-! ### C7: determinism of the final sequence -/

/-- Tie scenario, root `R`. -/
def tieR : Commit := { hash := "R", parents := [], committerWhen := 0, files := [] }

/-- Tie scenario: `A` touches `f`, committer timestamp 5. -/
def tieA : Commit := { hash := "A", parents := ["R"], committerWhen := 5, files := ["f"] }

/-- Tie scenario: `B` touches `f`, the same committer timestamp 5. -/
def tieB : Commit := { hash := "B", parents := ["A"], committerWhen := 5, files := ["f"] }

/-- The linear history `R - A - B` with `A` and `B` sharing a committer
timestamp. -/
def tieRepo : Repo := { commits := [tieR, tieA, tieB] }

/-- The result map of the tie scenario's diff walks. -/
def tieMap : CommitMap := [("A", tieA), ("B", tieB)]

/-- **C7** (counterexample).  On the tie scenario the result set is
`{A, B}`, both valid map-iteration orders are permutations of its key set,
`A` and `B` share a committer timestamp, and the two iteration orders
produce *different* final sequences: the sort compares timestamps only, so
ties are broken by the randomized map-iteration order, not
deterministically. -/
theorem c7_counterexample_tied_timestamps :
    computeDiffCommitsSet tieRepo tieR tieB 6 6
        { added := ["f"], removed := [], changed := [] } = .ok tieMap
      ∧ tieMap.map (fun kv => kv.1) = ["A", "B"]
      ∧ (["B", "A"] : List String).Perm ["A", "B"]
      ∧ tieA.committerWhen = tieB.committerWhen
      ∧ materializeCommits tieMap ["A", "B"]
          ≠ materializeCommits tieMap ["B", "A"] := by
  refine ⟨rfl, rfl, ?_, rfl, ?_⟩
  · decide
  · decide

/-- The comparison `sort.Slice` is given (non-strictly, as the sorted-ness
predicate): earlier-or-equal committer timestamp. -/
def commitLe (a b : Commit) : Prop :=
  a.committerWhen ≤ b.committerWhen

theorem insertByWhen_perm (c : Commit) :
    ∀ (l : List Commit), (insertByWhen c l).Perm (c :: l) := by
  intro l
  induction l with
  | nil => exact List.Perm.refl _
  | cons d ds ih =>
    by_cases hlt : c.committerWhen < d.committerWhen
    · simp only [insertByWhen, hlt, if_true]
      exact List.Perm.refl _
    · simp only [insertByWhen, hlt, if_false]
      exact (ih.cons d).trans (List.Perm.swap c d ds)

theorem sortByWhen_perm : ∀ (l : List Commit), (sortByWhen l).Perm l := by
  intro l
  induction l with
  | nil => exact List.Perm.refl _
  | cons c cs ih =>
    have h1 : sortByWhen (c :: cs) = insertByWhen c (sortByWhen cs) := rfl
    rw [h1]
    exact (insertByWhen_perm c (sortByWhen cs)).trans (ih.cons c)

theorem mem_insertByWhen {x c : Commit} {l : List Commit}
    (h : x ∈ insertByWhen c l) : x = c ∨ x ∈ l := by
  have := (insertByWhen_perm c l).mem_iff.mp h
  simpa using this

theorem insertByWhen_pairwise (c : Commit) :
    ∀ (l : List Commit), List.Pairwise commitLe l →
      List.Pairwise commitLe (insertByWhen c l) := by
  intro l
  induction l with
  | nil =>
    intro _
    exact List.pairwise_singleton commitLe c
  | cons d ds ih =>
    intro hp
    obtain ⟨hd, hds⟩ := List.pairwise_cons.mp hp
    by_cases hlt : c.committerWhen < d.committerWhen
    · simp only [insertByWhen, hlt, if_true]
      refine List.pairwise_cons.mpr ⟨?_, hp⟩
      intro x hx
      rcases List.mem_cons.mp hx with he | hm
      · rw [he]
        exact Nat.le_of_lt hlt
      · exact Nat.le_trans (Nat.le_of_lt hlt) (hd x hm)
    · simp only [insertByWhen, hlt, if_false]
      refine List.pairwise_cons.mpr ⟨?_, ih hds⟩
      intro x hx
      rcases mem_insertByWhen hx with he | hm
      · rw [he]
        exact Nat.le_of_not_lt hlt
      · exact hd x hm

theorem sortByWhen_pairwise : ∀ (l : List Commit),
    List.Pairwise commitLe (sortByWhen l) := by
  intro l
  induction l with
  | nil => exact List.Pairwise.nil
  | cons c cs ih => exact insertByWhen_pairwise c (sortByWhen cs) ih

/-- A sorted sequence of commits with pairwise-distinct committer
timestamps is determined by its multiset of elements. -/
theorem sorted_perm_eq_of_nodup_when :
    ∀ (l1 l2 : List Commit), List.Pairwise commitLe l1 →
      List.Pairwise commitLe l2 → l1.Perm l2 →
      (l1.map (fun c => c.committerWhen)).Nodup → l1 = l2 := by
  intro l1
  induction l1 with
  | nil =>
    intro l2 _ _ hperm _
    exact (List.Perm.nil_eq hperm).symm ▸ rfl
  | cons a t1 ih =>
    intro l2 hp1 hp2 hperm hnd
    cases l2 with
    | nil => exact absurd hperm.symm (by simp)
    | cons b t2 =>
      obtain ⟨ha1, ht1⟩ := List.pairwise_cons.mp hp1
      obtain ⟨hb2, ht2⟩ := List.pairwise_cons.mp hp2
      have hnd0 : (a.committerWhen :: t1.map (fun c => c.committerWhen)).Nodup := by
        rw [← List.map_cons]
        exact hnd
      have hab : a = b := by
        have hain : a ∈ b :: t2 := hperm.mem_iff.mp (List.mem_cons_self a t1)
        rcases List.mem_cons.mp hain with he | hm
        · exact he
        · have hbin : b ∈ a :: t1 :=
            hperm.symm.mem_iff.mp (List.mem_cons_self b t2)
          rcases List.mem_cons.mp hbin with he' | hm'
          · exact he'.symm
          · have hle1 : commitLe a b := ha1 b hm'
            have hle2 : commitLe b a := hb2 a hm
            have hweq : b.committerWhen = a.committerWhen :=
              Nat.le_antisymm hle2 hle1
            obtain ⟨hnma, _⟩ := List.nodup_cons.mp hnd0
            exact absurd (List.mem_map.mpr ⟨b, hm', hweq⟩) hnma
      subst hab
      have hperm' : t1.Perm t2 := hperm.cons_inv
      have hnd' : (t1.map (fun c => c.committerWhen)).Nodup :=
        (List.nodup_cons.mp hnd0).2
      rw [ih t2 ht1 ht2 hperm' hnd']

/-- **C7** (amended).  `computeDiffCommits` is a pure function of the
history and the two revisions, so two runs produce the same result *map*;
the final sequences materialized under any two map-iteration orders are
permutations of each other (same set of commits) and are both sorted by
committer timestamp ascending, and they are *identical* whenever the
committer timestamps in the result are pairwise distinct — with tied
timestamps the two runs may order the tied commits differently, because the
sort compares timestamps only over the randomized map-iteration order. -/
theorem c7_determinism_up_to_ties (r : Repo) (beginC endC : Commit)
    (afuel fuel : Nat) (cl : changeList) (m : CommitMap)
    (o1 o2 : List String)
    (_hm : computeDiffCommitsSet r beginC endC afuel fuel cl = .ok m)
    (ho1 : o1.Perm (m.map (fun kv => kv.1)))
    (ho2 : o2.Perm (m.map (fun kv => kv.1))) :
    (materializeCommits m o1).Perm (materializeCommits m o2)
      ∧ List.Pairwise commitLe (materializeCommits m o1)
      ∧ List.Pairwise commitLe (materializeCommits m o2)
      ∧ (((materializeCommits m o1).map (fun c => c.committerWhen)).Nodup →
          materializeCommits m o1 = materializeCommits m o2) := by
  have hoo : o1.Perm o2 := ho1.trans ho2.symm
  have hfm : (o1.filterMap (fun h => lookupCommit m h)).Perm
      (o2.filterMap (fun h => lookupCommit m h)) := hoo.filterMap _
  have hperm : (materializeCommits m o1).Perm (materializeCommits m o2) :=
    ((sortByWhen_perm _).trans hfm).trans (sortByWhen_perm _).symm
  refine ⟨hperm, sortByWhen_pairwise _, sortByWhen_pairwise _, ?_⟩
  intro hnd
  exact sorted_perm_eq_of_nodup_when (materializeCommits m o1)
    (materializeCommits m o2) (sortByWhen_pairwise _)
    (sortByWhen_pairwise _) hperm hnd

/-- Witness for `c7_determinism_up_to_ties` on the diamond history, whose
two reported commits have distinct timestamps: both iteration orders give
the same final sequence. -/
theorem c7_determinism_up_to_ties_witness :
    materializeCommits [("C", diaC), ("B", diaB)] ["C", "B"]
      = materializeCommits [("C", diaC), ("B", diaB)] ["B", "C"] :=
  (c7_determinism_up_to_ties diaRepo diaA diaD 6 6
      { added := ["f"], removed := [], changed := [] }
      [("C", diaC), ("B", diaB)] ["C", "B"] ["B", "C"]
      (by rfl) (by decide) (by decide)).2.2.2 (by decide)

/-! ### C5: a `removed` path is permanently out of consideration -/

/-- Erase path `pp` from a commit's tree, leaving everything else in
place.  Two commits equal after scrubbing differ at most in whether `pp`
is present. -/
def scrubFile (pp : String) (c : Commit) : Commit :=
  { c with files := c.files.filter (fun q => !(q == pp)) }

/-- Erase path `pp` from every stored commit of a result map. -/
def scrubMap (pp : String) (m : CommitMap) : CommitMap :=
  m.map (fun kv => (kv.1, scrubFile pp kv.2))

/-- Erase path `pp` from every commit of a repository. -/
def scrubRepo (pp : String) (r : Repo) : Repo :=
  { commits := r.commits.map (scrubFile pp) }

/-- Erase path `pp` from the commits stored in a walk result. -/
def scrubResult (pp : String) :
    Except WalkErr (List String × CommitMap) →
      Except WalkErr (List String × CommitMap)
  | .error e => .error e
  | .ok (s, m) => .ok (s, scrubMap pp m)

theorem scrubFile_hash (pp : String) (c : Commit) :
    (scrubFile pp c).hash = c.hash := rfl

theorem scrubFile_parents (pp : String) (c : Commit) :
    (scrubFile pp c).parents = c.parents := rfl

theorem scrubFile_idem (pp : String) (c : Commit) :
    scrubFile pp (scrubFile pp c) = scrubFile pp c := by
  simp [scrubFile, List.filter_filter]

theorem contains_filter_ne (pp q : String) (hq : (q == pp) = false) :
    ∀ (l : List String),
      (l.filter (fun x => !(x == pp))).contains q = l.contains q := by
  intro l
  induction l with
  | nil => rfl
  | cons x xs ih =>
    by_cases hx : (x == pp) = true
    · have hxq : (q == x) = false := by
        have hxp : x = pp := by simpa using hx
        rw [hxp]
        exact hq
      rw [List.filter_cons, List.contains_cons]
      simp only [hx, Bool.not_true, Bool.false_eq_true, if_false]
      rw [ih, hxq, Bool.false_or]
    · have hx' : (!(x == pp)) = true := by
        simp only [Bool.not_eq_true']
        simpa using hx
      rw [List.filter_cons]
      simp only [hx', if_true]
      rw [List.contains_cons, List.contains_cons, ih]

theorem fileExists_scrub_eq (pp q : String) (c1 c2 : Commit)
    (hs : scrubFile pp c1 = scrubFile pp c2) (hq : (q == pp) = false) :
    fileExists c1 q = fileExists c2 q := by
  have hf : c1.files.filter (fun x => !(x == pp))
      = c2.files.filter (fun x => !(x == pp)) := congrArg Commit.files hs
  have h1 := contains_filter_ne pp q hq c1.files
  have h2 := contains_filter_ne pp q hq c2.files
  rw [fileExists, fileExists, ← h1, ← h2, hf]

theorem updStep_scrub_eq (pp : String) (c1 c2 : Commit)
    (hs : scrubFile pp c1 = scrubFile pp c2)
    (acc : (String → fileStatus) × Bool) (q : String)
    (hacc : acc.1 pp = .removed) :
    updStep c1 acc q = updStep c2 acc q := by
  by_cases hq : q = pp
  · subst hq
    simp [updStep, hacc]
  · have hqb : (q == pp) = false := by simpa using hq
    have he := fileExists_scrub_eq pp q c1 c2 hs hqb
    cases hsq : acc.1 q <;> simp [updStep, hsq, he]

theorem updStep_keeps_removed (pp : String) (c : Commit)
    (acc : (String → fileStatus) × Bool) (q : String)
    (hacc : acc.1 pp = .removed) :
    (updStep c acc q).1 pp = .removed := by
  by_cases hq : q = pp
  · subst hq
    simp [updStep, hacc]
  · rw [updStep_fst_ne c acc q pp (fun e => hq e.symm)]
    exact hacc

theorem fold_updStep_scrub (pp : String) (c1 c2 : Commit)
    (hs : scrubFile pp c1 = scrubFile pp c2) :
    ∀ (paths : List String) (acc : (String → fileStatus) × Bool),
      acc.1 pp = .removed →
      paths.foldl (updStep c1) acc = paths.foldl (updStep c2) acc
        ∧ (paths.foldl (updStep c1) acc).1 pp = .removed := by
  intro paths
  induction paths with
  | nil => intro acc hacc; exact ⟨rfl, hacc⟩
  | cons q rest ih =>
    intro acc hacc
    have hstep := updStep_scrub_eq pp c1 c2 hs acc q hacc
    have hkeep := updStep_keeps_removed pp c1 acc q hacc
    obtain ⟨heq, hpp⟩ := ih (updStep c1 acc q) hkeep
    constructor
    · rw [List.foldl_cons, List.foldl_cons, heq, hstep]
    · rw [List.foldl_cons]
      exact hpp

theorem updateStatuses_scrub (pp : String) (c1 c2 : Commit)
    (hs : scrubFile pp c1 = scrubFile pp c2) (paths : List String)
    (st : String → fileStatus) (hst : st pp = .removed) :
    updateStatuses c1 paths st = updateStatuses c2 paths st
      ∧ (updateStatuses c1 paths st).1 pp = .removed :=
  fold_updStep_scrub pp c1 c2 hs paths (st, false) hst

theorem branchProcess_scrub (pp : String) (p1 p2 : Commit)
    (hs : scrubFile pp p1 = scrubFile pp p2) (paths : List String)
    (st : String → fileStatus) (hst : st pp = .removed) :
    branchProcess p1 paths st = branchProcess p2 paths st := by
  apply anyCongrOn
  intro q _
  by_cases hq : q = pp
  · subst hq
    simp [hst]
  · have hqb : (q == pp) = false := by simpa using hq
    rw [fileExists_scrub_eq pp q p1 p2 hs hqb]

theorem scrubRepo_find (pp : String) (r : Repo) (h : String) :
    (scrubRepo pp r).find? h = (r.find? h).map (scrubFile pp) := by
  rw [Repo.find?, Repo.find?, scrubRepo]
  rw [List.find?_map]
  rfl

theorem find_scrub (pp : String) (r1 r2 : Repo)
    (hr : scrubRepo pp r1 = scrubRepo pp r2) (h : String) :
    (r1.find? h).map (scrubFile pp) = (r2.find? h).map (scrubFile pp) := by
  rw [← scrubRepo_find, ← scrubRepo_find, hr]

theorem ancestorOf_scrub (pp : String) (r1 r2 : Repo)
    (hr : scrubRepo pp r1 = scrubRepo pp r2) :
    ∀ (k : Nat) (a d : String), ancestorOf r1 k a d = ancestorOf r2 k a d := by
  intro k
  induction k with
  | zero => intro a d; rfl
  | succ k ih =>
    intro a d
    rw [ancestorOf_succ_eq, ancestorOf_succ_eq]
    have hfd := find_scrub pp r1 r2 hr d
    cases h1 : r1.find? d with
    | none =>
      cases h2 : r2.find? d with
      | none => rfl
      | some c2 =>
        rw [h1, h2] at hfd
        exact Option.noConfusion hfd
    | some c1 =>
      cases h2 : r2.find? d with
      | none =>
        rw [h1, h2] at hfd
        exact Option.noConfusion hfd
      | some c2 =>
        rw [h1, h2] at hfd
        simp only [Option.map_some'] at hfd
        have hsc : scrubFile pp c1 = scrubFile pp c2 := by
          simpa using hfd
        have hpar : c1.parents = c2.parents := by
          rw [← scrubFile_parents pp c1, ← scrubFile_parents pp c2, hsc]
        show (a == d || c1.parents.any (fun p => ancestorOf r1 k a p))
            = (a == d || c2.parents.any (fun p => ancestorOf r2 k a p))
        rw [hpar]
        have hany : c2.parents.any (fun p => ancestorOf r1 k a p)
            = c2.parents.any (fun p => ancestorOf r2 k a p) :=
          anyCongrOn c2.parents _ _ (fun p _ => ih a p)
        rw [hany]

theorem runAcc_scrub (pp : String) (r1 r2 : Repo)
    (hr : scrubRepo pp r1 = scrubRepo pp r2) (afuel : Nat)
    (acc : accStrategy) (c1 c2 : Commit)
    (hs : scrubFile pp c1 = scrubFile pp c2) (cm1 cm2 : CommitMap)
    (hcm : scrubMap pp cm1 = scrubMap pp cm2) :
    scrubMap pp (runAcc r1 afuel acc c1 cm1).1
        = scrubMap pp (runAcc r2 afuel acc c2 cm2).1
      ∧ (runAcc r1 afuel acc c1 cm1).2 = (runAcc r2 afuel acc c2 cm2).2 := by
  have hhash : c1.hash = c2.hash := by
    rw [← scrubFile_hash pp c1, ← scrubFile_hash pp c2, hs]
  have hins : scrubMap pp (insertCommit cm1 c1)
      = scrubMap pp (insertCommit cm2 c2) := by
    simp only [scrubMap, insertCommit, List.map_cons]
    simp only [scrubMap] at hcm
    rw [hhash, hs, hcm]
  cases acc with
  | addAlways => exact ⟨hins, rfl⟩
  | addIfNotAncestor base =>
    have hanc : ancestorOf r1 afuel c1.hash base
        = ancestorOf r2 afuel c2.hash base := by
      rw [hhash]
      exact ancestorOf_scrub pp r1 r2 hr afuel c2.hash base
    cases hv : ancestorOf r1 afuel c1.hash base with
    | true =>
      have hv2 : ancestorOf r2 afuel c2.hash base = true := by
        rw [← hanc]; exact hv
      simp only [runAcc, hv, hv2, if_true]
      exact ⟨hcm, by trivial⟩
    | false =>
      have hv2 : ancestorOf r2 afuel c2.hash base = false := by
        rw [← hanc]; exact hv
      simp only [runAcc, hv, hv2, Bool.false_eq_true, if_false]
      exact ⟨hins, by trivial⟩

theorem fastAcc_scrub (pp : String) (r1 r2 : Repo)
    (hr : scrubRepo pp r1 = scrubRepo pp r2) (afuel : Nat)
    (acc : accStrategy) (c1 c2 : Commit)
    (hs : scrubFile pp c1 = scrubFile pp c2) (process : Bool)
    (cm1 cm2 : CommitMap) (hcm : scrubMap pp cm1 = scrubMap pp cm2) :
    scrubMap pp (fastAcc r1 afuel acc c1 process cm1).1
        = scrubMap pp (fastAcc r2 afuel acc c2 process cm2).1
      ∧ (fastAcc r1 afuel acc c1 process cm1).2
        = (fastAcc r2 afuel acc c2 process cm2).2 := by
  cases process with
  | false => exact ⟨hcm, rfl⟩
  | true => exact runAcc_scrub pp r1 r2 hr afuel acc c1 c2 hs cm1 cm2 hcm

theorem walkParents_scrub (pp : String) (r1 r2 : Repo)
    (hr : scrubRepo pp r1 = scrubRepo pp r2) (beginH : String)
    (afuel : Nat) (paths : List String)
    (rec1 rec2 : Commit → List String → (String → fileStatus) → CommitMap →
      Except WalkErr (List String × CommitMap))
    (hrec : ∀ (p1 p2 : Commit) (seen : List String)
        (st : String → fileStatus) (cm1 cm2 : CommitMap),
        scrubFile pp p1 = scrubFile pp p2 → st pp = .removed →
        scrubMap pp cm1 = scrubMap pp cm2 →
        scrubResult pp (rec1 p1 seen st cm1)
          = scrubResult pp (rec2 p2 seen st cm2)) :
    ∀ (l : List String) (idx : Nat) (curHash : String) (seen : List String)
      (st : String → fileStatus) (cm1 cm2 : CommitMap),
      st pp = .removed → scrubMap pp cm1 = scrubMap pp cm2 →
      scrubResult pp
          (walkParents r1 beginH afuel paths rec1 l idx curHash seen st cm1)
        = scrubResult pp
          (walkParents r2 beginH afuel paths rec2 l idx curHash seen st cm2) := by
  intro l
  induction l with
  | nil =>
    intro idx curHash seen st cm1 cm2 _ hcm
    simp only [walkParents, scrubResult]
    rw [hcm]
  | cons pHash rest ih =>
    intro idx curHash seen st cm1 cm2 hst hcm
    have hfd := find_scrub pp r1 r2 hr pHash
    cases h1 : r1.find? pHash with
    | none =>
      cases h2 : r2.find? pHash with
      | none => simp only [walkParents, h1, h2, scrubResult]
      | some p2 =>
        rw [h1, h2] at hfd
        exact Option.noConfusion hfd
    | some p1 =>
      cases h2 : r2.find? pHash with
      | none =>
        rw [h1, h2] at hfd
        exact Option.noConfusion hfd
      | some p2 =>
        rw [h1, h2] at hfd
        simp only [Option.map_some'] at hfd
        have hsp : scrubFile pp p1 = scrubFile pp p2 := by simpa using hfd
        have hbp := branchProcess_scrub pp p1 p2 hsp paths st hst
        have hph : p1.hash = p2.hash := by
          rw [← scrubFile_hash pp p1, ← scrubFile_hash pp p2, hsp]
        have hanc : ancestorOf r1 afuel p1.hash beginH
            = ancestorOf r2 afuel p2.hash beginH := by
          rw [hph]
          exact ancestorOf_scrub pp r1 r2 hr afuel p2.hash beginH
        cases hb : branchProcess p1 paths st with
        | false =>
          have hb2 : branchProcess p2 paths st = false := by
            rw [← hbp]; exact hb
          simp only [walkParents, h1, h2, hb, hb2, Bool.not_false, if_true]
          exact ih (idx + 1) curHash seen st cm1 cm2 hst hcm
        | true =>
          have hb2 : branchProcess p2 paths st = true := by
            rw [← hbp]; exact hb
          cases ha : ancestorOf r1 afuel p1.hash beginH with
          | true =>
            have ha2 : ancestorOf r2 afuel p2.hash beginH = true := by
              rw [← hanc]; exact ha
            simp only [walkParents, h1, h2, hb, hb2, ha, ha2, Bool.not_true,
              Bool.false_eq_true, if_false, if_true]
            exact ih (idx + 1) curHash seen st cm1 cm2 hst hcm
          | false =>
            have ha2 : ancestorOf r2 afuel p2.hash beginH = false := by
              rw [← hanc]; exact ha
            simp only [walkParents, h1, h2, hb, hb2, ha, ha2, Bool.not_true,
              Bool.false_eq_true, if_false]
            have hcall := hrec p1 p2 seen (copyMap st) cm1 cm2 hsp hst hcm
            cases hr1 : rec1 p1 seen (copyMap st) cm1 with
            | error e1 =>
              cases hr2 : rec2 p2 seen (copyMap st) cm2 with
              | error e2 =>
                rw [hr1, hr2] at hcall
                simp only [scrubResult] at hcall
                have he : e1 = e2 := by simpa using hcall
                simp only [hr1, hr2, he, scrubResult]
              | ok pr2 =>
                rw [hr1, hr2] at hcall
                obtain ⟨s2, m2⟩ := pr2
                simp only [scrubResult] at hcall
                exact Except.noConfusion hcall
            | ok pr1 =>
              obtain ⟨s1, m1⟩ := pr1
              cases hr2 : rec2 p2 seen (copyMap st) cm2 with
              | error e2 =>
                rw [hr1, hr2] at hcall
                simp only [scrubResult] at hcall
                exact Except.noConfusion hcall
              | ok pr2 =>
                obtain ⟨s2, m2⟩ := pr2
                rw [hr1, hr2] at hcall
                simp only [scrubResult, Except.ok.injEq, Prod.mk.injEq]
                  at hcall
                obtain ⟨hseq, hmeq⟩ := hcall
                subst hseq
                simp only [hr1, hr2]
                exact ih (idx + 1) curHash s1 st m1 m2 hst hmeq

/-- The walk's observable behaviour is independent of the presence of a
path whose status is `removed`: on scrub-equal inputs (same histories and
states up to the presence of `pp` in trees) the walk takes the same
branches, marks the same seen list, reports the same commit hashes, and
fails identically — even if `pp`'s file reappears further back. -/
theorem accumulate_scrub (pp : String) (r1 r2 : Repo)
    (hr : scrubRepo pp r1 = scrubRepo pp r2) (beginH : String)
    (afuel : Nat) (paths : List String) (acc : accStrategy) :
    ∀ (fuel : Nat) (c1 c2 : Commit) (seen : List String)
      (st : String → fileStatus) (cm1 cm2 : CommitMap),
      scrubFile pp c1 = scrubFile pp c2 → st pp = .removed →
      scrubMap pp cm1 = scrubMap pp cm2 →
      scrubResult pp (accumulateCommitsForPaths r1 beginH afuel paths acc
          fuel c1 seen st cm1)
        = scrubResult pp (accumulateCommitsForPaths r2 beginH afuel paths
          acc fuel c2 seen st cm2) := by
  intro fuel
  induction fuel with
  | zero =>
    intro c1 c2 seen st cm1 cm2 _ _ _
    simp only [accumulateCommitsForPaths, scrubResult]
  | succ fuel ih =>
    intro c1 c2 seen st cm1 cm2 hs hst hcm
    have hhash : c1.hash = c2.hash := by
      rw [← scrubFile_hash pp c1, ← scrubFile_hash pp c2, hs]
    by_cases hseen : seen.contains c1.hash = true
    · have hseen2 : seen.contains c2.hash = true := by
        rw [← hhash]; exact hseen
      simp only [accumulateCommitsForPaths, hseen, hseen2, if_true,
        scrubResult]
      rw [hcm]
    · have hseen' : seen.contains c1.hash = false := by simpa using hseen
      have hseen2 : seen.contains c2.hash = false := by
        rw [← hhash]; exact hseen'
      have hpar : c1.parents = c2.parents := by
        rw [← scrubFile_parents pp c1, ← scrubFile_parents pp c2, hs]
      rcases hps : c1.parents with _ | ⟨a, _ | ⟨b, t⟩⟩
      · have hps2 : c2.parents = [] := by rw [← hpar]; exact hps
        simp only [accumulateCommitsForPaths, hseen', hseen2,
          Bool.false_eq_true, if_false, hps, hps2]
        rw [hhash]
        exact walkParents_scrub pp r1 r2 hr beginH afuel paths _ _
          (fun p1 p2 s t' m1 m2 hsp hstp hcmp =>
            ih p1 p2 s t' m1 m2 hsp hstp hcmp)
          [] 0 c2.hash (c2.hash :: seen) st cm1 cm2 hst hcm
      · have hps2 : c2.parents = [a] := by rw [← hpar]; exact hps
        obtain ⟨hueq, hupp⟩ := updateStatuses_scrub pp c1 c2 hs paths st hst
        obtain ⟨hfeq, hfcont⟩ := fastAcc_scrub pp r1 r2 hr afuel acc c1 c2
          hs ((updateStatuses c1 paths st).2) cm1 cm2 hcm
        rcases hfa1 : fastAcc r1 afuel acc c1
            (updateStatuses c1 paths st).2 cm1 with ⟨cm1', cont1⟩
        rcases hfa2 : fastAcc r2 afuel acc c2
            (updateStatuses c2 paths st).2 cm2 with ⟨cm2', cont2⟩
        have hfa2' : fastAcc r2 afuel acc c2
            (updateStatuses c1 paths st).2 cm2 = (cm2', cont2) := by
          rw [hueq]; exact hfa2
        rw [hfa1, hfa2'] at hfcont
        rw [hfa1, hfa2'] at hfeq
        simp only at hfcont hfeq
        cases cont1 with
        | false =>
          have hc2 : cont2 = false := hfcont.symm
          subst hc2
          simp only [accumulateCommitsForPaths, hseen', hseen2,
            Bool.false_eq_true, if_false, hps, hps2, hfa1, hfa2,
            scrubResult]
          rw [hhash, hfeq]
        | true =>
          have hc2 : cont2 = true := hfcont.symm
          subst hc2
          have hfda := find_scrub pp r1 r2 hr a
          cases hf1 : r1.find? a with
          | none =>
            cases hf2 : r2.find? a with
            | none =>
              simp only [accumulateCommitsForPaths, hseen', hseen2,
                Bool.false_eq_true, if_false, hps, hps2, hfa1, hfa2, hf1,
                hf2, scrubResult]
              rw [hhash]
            | some n2 =>
              rw [hf1, hf2] at hfda
              exact Option.noConfusion hfda
          | some n1 =>
            cases hf2 : r2.find? a with
            | none =>
              rw [hf1, hf2] at hfda
              exact Option.noConfusion hfda
            | some n2 =>
              rw [hf1, hf2] at hfda
              simp only [Option.map_some'] at hfda
              have hsn : scrubFile pp n1 = scrubFile pp n2 := by
                simpa using hfda
              simp only [accumulateCommitsForPaths, hseen', hseen2,
                Bool.false_eq_true, if_false, hps, hps2, hfa1, hfa2, hf1,
                hf2]
              rw [hhash, ← hueq]
              exact ih n1 n2 (c2.hash :: seen)
                (updateStatuses c1 paths st).1 cm1' cm2' hsn hupp hfeq
      · have hps2 : c2.parents = a :: b :: t := by rw [← hpar]; exact hps
        simp only [accumulateCommitsForPaths, hseen', hseen2,
          Bool.false_eq_true, if_false, hps, hps2]
        rw [hhash]
        exact walkParents_scrub pp r1 r2 hr beginH afuel paths _ _
          (fun p1 p2 s t' m1 m2 hsp hstp hcmp =>
            ih p1 p2 s t' m1 m2 hsp hstp hcmp)
          (a :: b :: t) 0 c2.hash (c2.hash :: seen) st cm1 cm2 hst hcm

/-- **C5** (confirmed).  Once a path's status is `removed` on a branch it is
permanently out of consideration there: (a) the status-map copy taken at a
fork preserves `removed`; (b) every Path Status Tracker pass leaves a
`removed` status `removed`; (c) the tracker pass computes exactly the same
updated map and `process` signal as it would on the commit with the removed
path erased from its tree, so a `removed` path can never set `process`; (d)
likewise `branchProcess` ignores a `removed` path; (e) the entire remaining
walk behaves identically — same seen list, same reported commit hashes,
same errors — on histories that differ only in where the removed path's
file is present, even if the file reappears further back. -/
theorem c5_removed_path_never_reconsidered :
    (∀ (pp : String) (st : String → fileStatus),
        st pp = .removed → copyMap st pp = .removed)
      ∧ (∀ (pp : String) (c : Commit) (paths : List String)
          (st : String → fileStatus), st pp = .removed →
          (updateStatuses c paths st).1 pp = .removed)
      ∧ (∀ (pp : String) (c : Commit) (paths : List String)
          (st : String → fileStatus), st pp = .removed →
          updateStatuses c paths st
            = updateStatuses (scrubFile pp c) paths st)
      ∧ (∀ (pp : String) (p : Commit) (paths : List String)
          (st : String → fileStatus), st pp = .removed →
          branchProcess p paths st
            = branchProcess (scrubFile pp p) paths st)
      ∧ (∀ (pp : String) (r1 r2 : Repo) (beginH : String) (afuel : Nat)
          (paths : List String) (acc : accStrategy) (fuel : Nat)
          (c1 c2 : Commit) (seen : List String) (st : String → fileStatus)
          (cm1 cm2 : CommitMap),
          scrubRepo pp r1 = scrubRepo pp r2 →
          scrubFile pp c1 = scrubFile pp c2 → st pp = .removed →
          scrubMap pp cm1 = scrubMap pp cm2 →
          scrubResult pp (accumulateCommitsForPaths r1 beginH afuel paths
              acc fuel c1 seen st cm1)
            = scrubResult pp (accumulateCommitsForPaths r2 beginH afuel
              paths acc fuel c2 seen st cm2)) := by
  refine ⟨?_, ?_, ?_, ?_, ?_⟩
  · intro pp st hst
    exact hst
  · intro pp c paths st hst
    exact (fold_updStep_scrub pp c c rfl paths (st, false) hst).2
  · intro pp c paths st hst
    exact (updateStatuses_scrub pp c (scrubFile pp c)
      (scrubFile_idem pp c).symm paths st hst).1
  · intro pp p paths st hst
    exact branchProcess_scrub pp p (scrubFile pp p)
      (scrubFile_idem pp p).symm paths st hst
  · intro pp r1 r2 beginH afuel paths acc fuel c1 c2 seen st cm1 cm2
      hr hs hst hcm
    exact accumulate_scrub pp r1 r2 hr beginH afuel paths acc fuel c1 c2
      seen st cm1 cm2 hs hst hcm

/-- Variant of the linear history in which `file.txt` never exists. -/
def linB0 : Commit := { hash := "B", parents := ["A"], committerWhen := 2, files := [] }

/-- Variant of the linear history in which `file.txt` never exists. -/
def linC0 : Commit := { hash := "C", parents := ["B"], committerWhen := 3, files := [] }

/-- The linear history with `file.txt` erased everywhere. -/
def linRepo0 : Repo := { commits := [linA, linB0, linC0, linD] }

/-- Witness for `c5_removed_path_never_reconsidered`: with `file.txt`
already `removed`, the walk over the linear history behaves the same
whether or not `file.txt` ever existed in it. -/
theorem c5_removed_path_never_reconsidered_witness :
    scrubResult "file.txt"
        (accumulateCommitsForPaths linRepo "A" 8 ["file.txt"]
          .addAlways 8 linD [] (fun _ => .removed) [])
      = scrubResult "file.txt"
        (accumulateCommitsForPaths linRepo0 "A" 8 ["file.txt"]
          .addAlways 8 linD [] (fun _ => .removed) []) :=
  c5_removed_path_never_reconsidered.2.2.2.2 "file.txt" linRepo linRepo0
    "A" 8 ["file.txt"] .addAlways 8 linD linD [] (fun _ => .removed) [] []
    (by decide) (by decide) rfl rfl

end DiffBlame
